import Mathlib

/-!
FRC-2012: drive power shaping and sequential auto commands.

A shallow embedding of `src/subsystems/Drive.cpp` and of the sequential
command runner declared in `src/auto/SequentialCommand.h`.

Conventions of the embedding:

* C++ `double` values are exact rationals (`ℚ`): the arithmetic is the
  idealised real arithmetic of the source expressions, and the literals
  `0.01`, `1.0`, `256.0`, `3.5`, `3.14159265` are the decimal fractions they
  denote.  Non-finite values (NaN, infinities) are outside the model.
* The hardware handles owned by `Drive` (four Victors, the solenoids, the
  encoders) are fields of the `Drive` state holding the value last written
  to (or currently read from) the device.  Every `Victor::Set` is also
  appended to the `writes` log, so that statements about *every* value
  written, and not only the last one, can be made.
* The encoder fields hold the count `Encoder::Get()` returns, a 32-bit signed
  integer: a value in [-2147483648, 2147483647].  Integer arithmetic on it is
  two's complement, wrapping modulo 2^32 (`wrapInt32`).
* `printf` and the driver-station LCD are not modelled.
-/

/-! ## Drive: data model -/

/-- Positions of a `DoubleSolenoid` (WPILib `DoubleSolenoid::Value`). -/
inductive DoubleSolenoidValue where
  | kOff
  | kForward
  | kReverse
  deriving DecidableEq, Repr

/-- The tuning constants read by `Drive` through `constants_`. -/
structure Constants where
  linearCoeffA : ℚ
  linearCoeffB : ℚ
  linearCoeffC : ℚ
  linearCoeffD : ℚ
  linearCoeffE : ℚ
  turnSensHigh : ℚ
  turnSensLow : ℚ
  inertiaGain : ℚ

/-- The four drive motor controllers. -/
inductive Motor where
  | leftDriveMotorA
  | leftDriveMotorB
  | rightDriveMotorA
  | rightDriveMotorB
  deriving DecidableEq, Repr

/-- State of a `Drive` object together with the devices it owns.  `fpga` and
`prevGyro` are the function-local statics of `CheesyDrive`; they are `none`
until the first call runs their initialisers. -/
structure Drive where
  constants_ : Constants
  leftDriveMotorA_ : ℚ
  leftDriveMotorB_ : ℚ
  rightDriveMotorA_ : ℚ
  rightDriveMotorB_ : ℚ
  shiftSolenoid_ : Bool
  pizzaWheelSolenoid_ : DoubleSolenoidValue
  brakeSolenoid_ : DoubleSolenoidValue
  leftDriveEncoder_ : Int
  rightDriveEncoder_ : Int
  fpga : Option ℚ
  prevGyro : Option ℚ
  writes : List (Motor × ℚ)

/-- Values returned by the sensor reads of one `CheesyDrive` call, in program
order: the two reads in the initialisers of the statics (performed on the first
call only) and the two reads of the current sample. -/
structure Samples where
  fpgaInit : ℚ
  gyroInit : ℚ
  curfpga : ℚ
  curGyro : ℚ

/-- The local variables of `CheesyDrive` when control reaches the final
`SetLinearPower` call, together with the raw powers `lPowerRaw`, `rPowerRaw`
that `lPower`, `rPower` hold just before the saturation chain. -/
structure CheesyLocals where
  dt : ℚ
  dtheta : ℚ
  wubbleu : ℚ
  sensitivity : ℚ
  overPower : ℚ
  angularPower : ℚ
  lPowerRaw : ℚ
  rPowerRaw : ℚ
  lPower : ℚ
  rPower : ℚ

namespace Drive

/-! ## Drive: operations -/

/-- `Victor::Set` on one of the four motors: stores the value and logs it. -/
def setMotor (m : Motor) (v : ℚ) (d : Drive) : Drive :=
  match m with
  | Motor.leftDriveMotorA => { d with leftDriveMotorA_ := v, writes := d.writes ++ [(m, v)] }
  | Motor.leftDriveMotorB => { d with leftDriveMotorB_ := v, writes := d.writes ++ [(m, v)] }
  | Motor.rightDriveMotorA => { d with rightDriveMotorA_ := v, writes := d.writes ++ [(m, v)] }
  | Motor.rightDriveMotorB => { d with rightDriveMotorB_ := v, writes := d.writes ++ [(m, v)] }

/-- Modelled from the spec: `PwmLimit` is called by `SetPower` but defined
outside the files at hand.  The spec says SetPower "clamps each input to
[-1.0, 1.0] (values outside are saturated, not rejected)". -/
def PwmLimit (pwm : ℚ) : ℚ :=
  if pwm > 1 then 1 else if pwm < -1 then -1 else pwm

/-- `Drive::SetHighGear`. -/
def SetHighGear (highGear : Bool) (d : Drive) : Drive :=
  { d with shiftSolenoid_ := !highGear }

/-- `Drive::SetPizzaWheelDown`. -/
def SetPizzaWheelDown (down : Bool) (d : Drive) : Drive :=
  if down then { d with pizzaWheelSolenoid_ := DoubleSolenoidValue.kForward }
  else { d with pizzaWheelSolenoid_ := DoubleSolenoidValue.kReverse }

/-- `Drive::SetBrakeOn`. -/
def SetBrakeOn (brakeOn : Bool) (d : Drive) : Drive :=
  if brakeOn then { d with brakeSolenoid_ := DoubleSolenoidValue.kForward }
  else { d with brakeSolenoid_ := DoubleSolenoidValue.kReverse }

/-- `Drive::GetBrakeOn`. -/
def GetBrakeOn (d : Drive) : Bool :=
  d.brakeSolenoid_ == DoubleSolenoidValue.kForward

/-- `Drive::GetPizzaUp`. -/
def GetPizzaUp (d : Drive) : Bool :=
  !(d.pizzaWheelSolenoid_ == DoubleSolenoidValue.kForward)

/-- `Drive::ResetEncoders`. -/
def ResetEncoders (d : Drive) : Drive :=
  { d with leftDriveEncoder_ := 0, rightDriveEncoder_ := 0 }

/-- `Drive::SetPower`. -/
def SetPower (left right : ℚ) (d : Drive) : Drive :=
  let left := PwmLimit left
  let right := PwmLimit right
  let left := if GetBrakeOn d then 0 else left
  let right := if GetBrakeOn d then 0 else right
  let d := setMotor Motor.leftDriveMotorA left d
  let d := setMotor Motor.leftDriveMotorB (-left) d
  let d := setMotor Motor.rightDriveMotorA (-right) d
  setMotor Motor.rightDriveMotorB right d

/-- `Drive::Linearize`.  The recursive call of the source (on `-x`, for a
negative `x`) is kept; it lands in the positive branch. -/
def Linearize (c : Constants) (x : ℚ) : ℚ :=
  let x := if |x| < 1 / 100 then 0 else x
  if x > 0 then
    c.linearCoeffA * x ^ 4 + c.linearCoeffB * x ^ 3 + c.linearCoeffC * x ^ 2
      + c.linearCoeffD * x + c.linearCoeffE
  else if x < 0 then
    -Linearize c (-x)
  else
    0
termination_by (if x < 0 then 1 else 0)
decreasing_by
  all_goals simp_wf
  rename_i x0 _ hneg
  have e : (1 : ℚ) / 100 = 100⁻¹ := by norm_num
  by_cases h100 : |x0| < (100 : ℚ)⁻¹
  · have hx : x = 0 := by simp only [x, e]; split_ifs; rfl
    rw [hx] at hneg
    exact absurd hneg (lt_irrefl 0)
  · have hx : x = x0 := by simp only [x, e]; split_ifs; rfl
    rw [hx] at hneg
    rw [if_neg h100, if_pos hneg, if_neg (by linarith)]
    exact Nat.zero_lt_one

/-- `Drive::SetLinearPower`. -/
def SetLinearPower (left right : ℚ) (d : Drive) : Drive :=
  let linearLeft := Linearize d.constants_ left
  let linearRight := Linearize d.constants_ right
  let linearLeft := if linearLeft > 1 then 1 else if linearLeft < -1 then -1 else linearLeft
  let linearRight := if linearRight > 1 then 1 else if linearRight < -1 then -1 else linearRight
  SetPower linearLeft linearRight d

/-- The computation of `Drive::CheesyDrive` up to the end of the saturation
chain: every step is the source statement of the same name. -/
def cheesyLocals (throttle wheel : ℚ) (quickTurn : Bool) (s : Samples) (d : Drive) :
    CheesyLocals :=
  let fpga := d.fpga.getD s.fpgaInit
  let prevGyro := d.prevGyro.getD s.gyroInit
  let curfpga := s.curfpga
  let curGyro := s.curGyro
  let dt := curfpga - fpga
  let dtheta := curGyro - prevGyro
  let wubbleu := dtheta / dt
  let sensitivity :=
    if !d.shiftSolenoid_ then d.constants_.turnSensHigh else d.constants_.turnSensLow
  let overPower : ℚ := if quickTurn then 1 else 0
  let sensitivity := if quickTurn then 1 else sensitivity
  let angularPower := if quickTurn then wheel else |throttle| * wheel * sensitivity
  let angularPower :=
    if !quickTurn then angularPower - wubbleu * d.constants_.inertiaGain else angularPower
  let rPower := throttle
  let lPower := throttle
  let lPower := lPower + angularPower
  let rPower := rPower - angularPower
  let sat : ℚ × ℚ :=
    if lPower > 1 then
      (1, rPower - overPower * (lPower - 1))
    else if rPower > 1 then
      (lPower - overPower * (rPower - 1), 1)
    else if lPower < -1 then
      (-1, rPower + overPower * (-1 - lPower))
    else if rPower < -1 then
      (lPower + overPower * (-1 - rPower), -1)
    else
      (lPower, rPower)
  { dt := dt, dtheta := dtheta, wubbleu := wubbleu, sensitivity := sensitivity,
    overPower := overPower, angularPower := angularPower,
    lPowerRaw := lPower, rPowerRaw := rPower, lPower := sat.1, rPower := sat.2 }

/-- The statics of `CheesyDrive` after `fpga = curfpga; prevGyro = curGyro;`. -/
def storeSample (s : Samples) (d : Drive) : Drive :=
  { d with fpga := some s.curfpga, prevGyro := some s.curGyro }

/-- `Drive::CheesyDrive`.  The zero-throttle branch calls `SetLinearPower(0.0, 0.0)`
and, as in the source, control then continues to the final `SetLinearPower` call. -/
def CheesyDrive (throttle wheel : ℚ) (quickTurn : Bool) (s : Samples) (d : Drive) : Drive :=
  let v := cheesyLocals throttle wheel quickTurn s d
  let d := storeSample s d
  let d := if throttle = 0 ∧ quickTurn = false then SetLinearPower 0 0 d else d
  SetLinearPower v.lPower v.rPower d

/-- The entries a call appended to the motor write log. -/
def written (before after : Drive) : List (Motor × ℚ) :=
  after.writes.drop before.writes.length

/-- Every logged motor value lies in [-1, 1]. -/
def WithinUnit (ws : List (Motor × ℚ)) : Prop :=
  ∀ w ∈ ws, -1 ≤ w.2 ∧ w.2 ≤ 1

/-- The reference definition of linearization given in the specification: a
dead-band below 0.01, otherwise the quartic in `|x|` with the sign of `x`. -/
def LinearizeSpec (c : Constants) (x : ℚ) : ℚ :=
  if |x| < 1 / 100 then 0
  else
    (if x > 0 then 1 else if x < 0 then -1 else 0) *
      (c.linearCoeffA * |x| ^ 4 + c.linearCoeffB * |x| ^ 3 + c.linearCoeffC * |x| ^ 2
        + c.linearCoeffD * |x| + c.linearCoeffE)

/-- Saturation to the interval [-1, 1], as a lattice expression. -/
def clampUnit (x : ℚ) : ℚ :=
  max (-1) (min 1 x)

/-- A drive with identity linearization (`linearCoeffD = 1`, the other
coefficients 0), unit turn sensitivities and inertia gain, brake released, low or
high gear as given, and statics holding the sample `(0, 0)`. -/
def sampleDrive (lowGear : Bool) : Drive :=
  { constants_ :=
      { linearCoeffA := 0, linearCoeffB := 0, linearCoeffC := 0, linearCoeffD := 1,
        linearCoeffE := 0, turnSensHigh := 1, turnSensLow := 1, inertiaGain := 1 },
    leftDriveMotorA_ := 0, leftDriveMotorB_ := 0, rightDriveMotorA_ := 0,
    rightDriveMotorB_ := 0, shiftSolenoid_ := lowGear,
    pizzaWheelSolenoid_ := DoubleSolenoidValue.kReverse,
    brakeSolenoid_ := DoubleSolenoidValue.kReverse,
    leftDriveEncoder_ := 0, rightDriveEncoder_ := 0,
    fpga := some 0, prevGyro := some 0, writes := [] }

/-- One sample taken one time unit and one heading unit after `(0, 0)`. -/
def sampleReads : Samples :=
  { fpgaInit := 0, gyroInit := 0, curfpga := 1, curGyro := 1 }

/-- One sample taken one time unit after `(0, 0)` with the heading unchanged. -/
def steadyReads : Samples :=
  { fpgaInit := 0, gyroInit := 0, curfpga := 1, curGyro := 0 }

end Drive

/-! ## Sequential command runner: data model and operations -/

/-- Modelled from the spec: the task interface `AutoCommand` (its header is not
among the files at hand).  The spec says a task "must expose `Initialize()` (no
return) and `Step() -> bool` where `true` means this step completed all of this
task's work"; the source calls the step method `Run`.  A task is its private
state together with the two methods acting on it. -/
structure AutoCommand (σ : Type) where
  state : σ
  onInitialize : σ → σ
  onRun : σ → σ × Bool

/-- A call made by the runner on the child with the given index. -/
inductive ChildCall where
  | init (i : Nat)
  | step (i : Nat)
  deriving DecidableEq, Repr

/-- The members of `SequentialCommand`, and the log of the calls it has made on
its children (oldest first). -/
structure SequentialCommand (σ : Type) where
  commands_ : List (AutoCommand σ)
  commandIndex_ : Nat
  calls : List ChildCall

namespace AutoCommand

variable {σ : Type}

/-- Calling `Initialize()` on a task. -/
def Initialize (c : AutoCommand σ) : AutoCommand σ :=
  { c with state := c.onInitialize c.state }

/-- Calling `Run()` on a task: the task afterwards, and the value returned. -/
def Run (c : AutoCommand σ) : AutoCommand σ × Bool :=
  ({ c with state := (c.onRun c.state).1 }, (c.onRun c.state).2)

/-- The values returned by `n` successive `Run()` calls on a task. -/
def runResults : Nat → AutoCommand σ → List Bool
  | 0, _ => []
  | n + 1, c => c.Run.2 :: runResults n c.Run.1

/-- The task reports complete on the `k`-th of the next `Run()` calls, and not
before (`k ≥ 1`). -/
def StepsLeft (c : AutoCommand σ) (k : Nat) : Prop :=
  1 ≤ k ∧ runResults k c = List.replicate (k - 1) false ++ [true]

/-- The task, once initialized, reports complete on its `k`-th `Run()` call. -/
def CompletesOn (c : AutoCommand σ) (k : Nat) : Prop :=
  StepsLeft c.Initialize k

instance (c : AutoCommand σ) (k : Nat) : Decidable (StepsLeft c k) :=
  inferInstanceAs (Decidable (1 ≤ k ∧ runResults k c = List.replicate (k - 1) false ++ [true]))

instance (c : AutoCommand σ) (k : Nat) : Decidable (CompletesOn c k) :=
  inferInstanceAs (Decidable (StepsLeft c.Initialize k))

/-- A stub task that completes on its `k`-th `Run()` after `Initialize()`: its
state counts the `Run()` calls made since. -/
def stub (k : Nat) : AutoCommand Nat :=
  { state := 0, onInitialize := fun _ => 0, onRun := fun n => (n + 1, decide (k ≤ n + 1)) }

end AutoCommand

namespace ChildCall

/-- The child index of an `Initialize` call, nothing for a `Run` call. -/
def initIndex : ChildCall → Option Nat
  | init i => some i
  | step _ => none

end ChildCall

namespace SequentialCommand

variable {σ : Type}

/-- Modelled from the spec: the constructor of `SequentialCommand` (only
declared in the header).  The runner is "constructed with the full list of
child tasks" and its "index starts at 0". -/
def create (commands : List (AutoCommand σ)) : SequentialCommand σ :=
  { commands_ := commands, commandIndex_ := 0, calls := [] }

/-- Modelled from the spec: `SequentialCommand::Initialize` (only declared in
the header).  "Sets index to 0 and calls Initialize on child 0.  Fails
(precondition violation) if the child list is empty." -/
def Initialize (r : SequentialCommand σ) : Option (SequentialCommand σ) :=
  match r.commands_[0]? with
  | none => none
  | some c =>
    some { commands_ := r.commands_.set 0 c.Initialize,
           commandIndex_ := 0,
           calls := r.calls ++ [ChildCall.init 0] }

/-- Modelled from the spec: `SequentialCommand::Run` (only declared in the
header).  "Calls Step on the child at the current index.  If that child reports
not complete, returns not complete for the whole runner.  If that child reports
complete: if more children remain, advance index by one and call Initialize on
the new current child, then return not complete; if no children remain, return
complete."  After the last child the runner is in the state Done, "index has
passed the last child", where further calls are "undefined by this core": there
the model returns `none`. -/
def Run (r : SequentialCommand σ) : Option (SequentialCommand σ × Bool) :=
  match r.commands_[r.commandIndex_]? with
  | none => none
  | some c =>
    let commands := r.commands_.set r.commandIndex_ c.Run.1
    let calls := r.calls ++ [ChildCall.step r.commandIndex_]
    if c.Run.2 = false then
      some ({ commands_ := commands, commandIndex_ := r.commandIndex_, calls := calls }, false)
    else
      match commands[r.commandIndex_ + 1]? with
      | some next =>
        some ({ commands_ := commands.set (r.commandIndex_ + 1) next.Initialize,
                commandIndex_ := r.commandIndex_ + 1,
                calls := calls ++ [ChildCall.init (r.commandIndex_ + 1)] }, false)
      | none =>
        some ({ commands_ := commands, commandIndex_ := r.commandIndex_ + 1,
                calls := calls }, true)

/-- The runner after `n` successive `Run()` calls and the values they returned;
`none` if one of the calls is undefined. -/
def runs : Nat → SequentialCommand σ → Option (SequentialCommand σ × List Bool)
  | 0, r => some (r, [])
  | n + 1, r =>
    match Run r with
    | none => none
    | some (r1, b) =>
      match runs n r1 with
      | none => none
      | some (r2, bs) => some (r2, b :: bs)

/-- No child is stepped before it was initialized: every `Run` call on child
`i` in the log has an `Initialize` call on child `i` before it. -/
def StepAfterInit (calls : List ChildCall) : Prop :=
  ∀ (pre post : List ChildCall) (i : Nat),
    calls = pre ++ ChildCall.step i :: post → ChildCall.init i ∈ pre

/-- Once child `i + 1` has been initialized, child `i` is not stepped again. -/
def NoStepBack (calls : List ChildCall) : Prop :=
  ∀ (pre post : List ChildCall) (i : Nat),
    calls = pre ++ ChildCall.init (i + 1) :: post → ChildCall.step i ∉ post

/-- The invariant of a runner over `n` children between calls: the children up
to the current one, and no others, have been initialized, in order; only they
have been stepped; and the log respects the two ordering properties. -/
def TraceInv (n : Nat) (r : SequentialCommand σ) : Prop :=
  r.commands_.length = n ∧ r.commandIndex_ ≤ n ∧
  r.calls.filterMap ChildCall.initIndex = List.range (min (r.commandIndex_ + 1) n) ∧
  (∀ i, ChildCall.step i ∈ r.calls → i ≤ r.commandIndex_) ∧
  StepAfterInit r.calls ∧ NoStepBack r.calls

/-- `Initialize()` on a freshly constructed runner followed by `n` `Run()` calls. -/
def execute (commands : List (AutoCommand σ)) (n : Nat) :
    Option (SequentialCommand σ × List Bool) :=
  match Initialize (create commands) with
  | none => none
  | some r => runs n r

end SequentialCommand

/-! ## Drive: lemmas on clamping and linearization -/

namespace Drive

theorem PwmLimit_eq_clampUnit (x : ℚ) : PwmLimit x = clampUnit x := by
  unfold PwmLimit clampUnit
  split_ifs with h1 h2
  · rw [min_eq_left (le_of_lt h1)]; exact (max_eq_right (by norm_num)).symm
  · rw [min_eq_right (by linarith), max_eq_left (le_of_lt h2)]
  · rw [min_eq_right (by linarith), max_eq_right (by linarith)]

theorem PwmLimit_bounds (x : ℚ) : -1 ≤ PwmLimit x ∧ PwmLimit x ≤ 1 := by
  unfold PwmLimit
  split_ifs with h1 h2
  · constructor <;> norm_num
  · constructor <;> norm_num
  · exact ⟨by linarith, by linarith⟩

theorem PwmLimit_of_bounds {x : ℚ} (h1 : -1 ≤ x) (h2 : x ≤ 1) : PwmLimit x = x := by
  unfold PwmLimit
  rw [if_neg (by linarith), if_neg (by linarith)]

/-- The defining equation of `Linearize`: one unfolding of the source body. -/
theorem Linearize_def (c : Constants) (x : ℚ) :
    Linearize c x =
      (let x := if |x| < 1 / 100 then 0 else x
       if x > 0 then
         c.linearCoeffA * x ^ 4 + c.linearCoeffB * x ^ 3 + c.linearCoeffC * x ^ 2
           + c.linearCoeffD * x + c.linearCoeffE
       else if x < 0 then
         -Linearize c (-x)
       else
         0) := by
  delta Linearize
  rw [WellFounded.fix_eq]
  simp only [dite_eq_ite]

theorem Linearize_of_small (c : Constants) {x : ℚ} (h : |x| < 1 / 100) :
    Linearize c x = 0 := by
  rw [Linearize_def]
  simp only [if_pos h, gt_iff_lt, lt_irrefl, if_false]

theorem Linearize_of_pos (c : Constants) {x : ℚ} (h : 1 / 100 ≤ x) :
    Linearize c x =
      c.linearCoeffA * x ^ 4 + c.linearCoeffB * x ^ 3 + c.linearCoeffC * x ^ 2
        + c.linearCoeffD * x + c.linearCoeffE := by
  have hx : 0 < x := by linarith
  have habs : ¬ |x| < 1 / 100 := by rw [abs_of_pos hx]; linarith
  rw [Linearize_def]
  simp only [if_neg habs, gt_iff_lt, if_pos hx]

theorem Linearize_of_neg (c : Constants) {x : ℚ} (h : x ≤ -(1 / 100)) :
    Linearize c x = -Linearize c (-x) := by
  have hx : x < 0 := by linarith
  have habs : ¬ |x| < 1 / 100 := by rw [abs_of_neg hx]; linarith
  rw [Linearize_def]
  simp only [if_neg habs, gt_iff_lt, if_neg (not_lt.mpr (le_of_lt hx)), if_pos hx]

/-- The three cases of the dead-band test. -/
theorem deadband_cases (x : ℚ) : |x| < 1 / 100 ∨ 1 / 100 ≤ x ∨ x ≤ -(1 / 100) := by
  rcases lt_or_le |x| (1 / 100) with h | h
  · exact Or.inl h
  · rcases le_abs'.mp h with h' | h'
    · exact Or.inr (Or.inr h')
    · exact Or.inr (Or.inl h')

/-- The inline saturation of `SetLinearPower` is the clamp to [-1, 1]. -/
theorem inline_clamp_eq (x : ℚ) :
    (if x > 1 then 1 else if x < -1 then -1 else x) = clampUnit x :=
  PwmLimit_eq_clampUnit x

theorem clampUnit_bounds (x : ℚ) : -1 ≤ clampUnit x ∧ clampUnit x ≤ 1 := by
  rw [← PwmLimit_eq_clampUnit]
  exact PwmLimit_bounds x

theorem clampUnit_idem (x : ℚ) : clampUnit (clampUnit x) = clampUnit x := by
  rw [← PwmLimit_eq_clampUnit (clampUnit x)]
  exact PwmLimit_of_bounds (clampUnit_bounds x).1 (clampUnit_bounds x).2

/-! ## Drive: what `SetPower` and `SetLinearPower` write -/

/-- `SetPower` in closed form: the four motor fields and the four log entries. -/
theorem SetPower_eq (left right : ℚ) (d : Drive) :
    SetPower left right d =
      { d with
        leftDriveMotorA_ := if GetBrakeOn d then 0 else PwmLimit left,
        leftDriveMotorB_ := -(if GetBrakeOn d then 0 else PwmLimit left),
        rightDriveMotorA_ := -(if GetBrakeOn d then 0 else PwmLimit right),
        rightDriveMotorB_ := if GetBrakeOn d then 0 else PwmLimit right,
        writes := d.writes ++
          [(Motor.leftDriveMotorA, if GetBrakeOn d then 0 else PwmLimit left),
           (Motor.leftDriveMotorB, -(if GetBrakeOn d then 0 else PwmLimit left)),
           (Motor.rightDriveMotorA, -(if GetBrakeOn d then 0 else PwmLimit right)),
           (Motor.rightDriveMotorB, if GetBrakeOn d then 0 else PwmLimit right)] } := by
  simp [SetPower, setMotor]

theorem applied_bounds (b : Bool) (x : ℚ) :
    -1 ≤ (if b then 0 else PwmLimit x) ∧ (if b then 0 else PwmLimit x) ≤ 1 := by
  cases b
  · simpa using PwmLimit_bounds x
  · simp

/-- Everything `SetPower` appends to the log lies in [-1, 1]. -/
theorem SetPower_written (left right : ℚ) (d : Drive) :
    ∃ ws : List (Motor × ℚ), (SetPower left right d).writes = d.writes ++ ws ∧
      ws.length = 4 ∧ ∀ w ∈ ws, -1 ≤ w.2 ∧ w.2 ≤ 1 := by
  have hl := applied_bounds (GetBrakeOn d) left
  have hr := applied_bounds (GetBrakeOn d) right
  rw [SetPower_eq]
  refine ⟨_, rfl, rfl, ?_⟩
  intro w hw
  simp only [List.mem_cons, List.mem_singleton, List.not_mem_nil, or_false] at hw
  rcases hw with h | h | h | h <;> subst h <;> constructor <;> simp only <;> linarith

theorem SetPower_fields_bounded (left right : ℚ) (d : Drive) :
    (-1 ≤ (SetPower left right d).leftDriveMotorA_ ∧ (SetPower left right d).leftDriveMotorA_ ≤ 1) ∧
    (-1 ≤ (SetPower left right d).leftDriveMotorB_ ∧ (SetPower left right d).leftDriveMotorB_ ≤ 1) ∧
    (-1 ≤ (SetPower left right d).rightDriveMotorA_ ∧ (SetPower left right d).rightDriveMotorA_ ≤ 1) ∧
    (-1 ≤ (SetPower left right d).rightDriveMotorB_ ∧ (SetPower left right d).rightDriveMotorB_ ≤ 1) := by
  have hl := applied_bounds (GetBrakeOn d) left
  have hr := applied_bounds (GetBrakeOn d) right
  rw [SetPower_eq]
  refine ⟨⟨?_, ?_⟩, ⟨?_, ?_⟩, ⟨?_, ?_⟩, ⟨?_, ?_⟩⟩ <;> simp only <;> linarith

/-- `SetLinearPower` is `SetPower` on the clamped linearized powers. -/
theorem SetLinearPower_eq (left right : ℚ) (d : Drive) :
    SetLinearPower left right d =
      SetPower (clampUnit (Linearize d.constants_ left))
        (clampUnit (Linearize d.constants_ right)) d := by
  simp only [SetLinearPower, inline_clamp_eq]

theorem written_of_append {d e : Drive} {ws : List (Motor × ℚ)}
    (h : e.writes = d.writes ++ ws) : written d e = ws := by
  unfold written
  rw [h, List.drop_left]

theorem SetLinearPower_written (left right : ℚ) (d : Drive) :
    ∃ ws : List (Motor × ℚ), (SetLinearPower left right d).writes = d.writes ++ ws ∧
      ws.length = 4 ∧ ∀ w ∈ ws, -1 ≤ w.2 ∧ w.2 ≤ 1 := by
  rw [SetLinearPower_eq]
  exact SetPower_written _ _ d

/-- The log after `CheesyDrive`: one or two `SetLinearPower` calls were made. -/
theorem CheesyDrive_written (throttle wheel : ℚ) (quickTurn : Bool) (s : Samples) (d : Drive) :
    ∃ ws : List (Motor × ℚ),
      (CheesyDrive throttle wheel quickTurn s d).writes = d.writes ++ ws ∧
      (ws.length = 4 ∨ ws.length = 8) ∧ ∀ w ∈ ws, -1 ≤ w.2 ∧ w.2 ≤ 1 := by
  unfold CheesyDrive
  by_cases hz : throttle = 0 ∧ quickTurn = false
  · simp only [if_pos hz]
    obtain ⟨ws1, h1, l1, b1⟩ := SetLinearPower_written 0 0 (storeSample s d)
    obtain ⟨ws2, h2, l2, b2⟩ :=
      SetLinearPower_written (cheesyLocals throttle wheel quickTurn s d).lPower
        (cheesyLocals throttle wheel quickTurn s d).rPower
        (SetLinearPower 0 0 (storeSample s d))
    refine ⟨ws1 ++ ws2, ?_, Or.inr (by rw [List.length_append, l1, l2]), ?_⟩
    · rw [h2, h1, List.append_assoc]; rfl
    · intro w hw
      rcases List.mem_append.mp hw with h | h
      · exact b1 w h
      · exact b2 w h
  · simp only [if_neg hz]
    obtain ⟨ws, h, l, b⟩ :=
      SetLinearPower_written (cheesyLocals throttle wheel quickTurn s d).lPower
        (cheesyLocals throttle wheel quickTurn s d).rPower (storeSample s d)
    exact ⟨ws, by rw [h]; rfl, Or.inl l, b⟩

/-- With the coefficients of `sampleDrive`, linearization is the identity outside
the dead-band. -/
theorem Linearize_sampleDrive (lowGear : Bool) (x : ℚ) :
    Linearize (sampleDrive lowGear).constants_ x = if |x| < 1 / 100 then 0 else x := by
  rcases deadband_cases x with h | h | h
  · rw [Linearize_of_small _ h, if_pos h]
  · have habs : ¬ |x| < 1 / 100 := by rw [abs_of_pos (by linarith)]; linarith
    rw [Linearize_of_pos _ h, if_neg habs]
    simp [sampleDrive]
  · have habs : ¬ |x| < 1 / 100 := by rw [abs_of_neg (by linarith)]; linarith
    rw [Linearize_of_neg _ h, Linearize_of_pos _ (by linarith), if_neg habs]
    simp [sampleDrive]

/-- The motor fields after `SetPower` with the brake not engaged. -/
theorem SetPower_released (d : Drive) (left right : ℚ) (hb : GetBrakeOn d = false) :
    (SetPower left right d).leftDriveMotorA_ = clampUnit left ∧
    (SetPower left right d).leftDriveMotorB_ = -clampUnit left ∧
    (SetPower left right d).rightDriveMotorA_ = -clampUnit right ∧
    (SetPower left right d).rightDriveMotorB_ = clampUnit right := by
  rw [SetPower_eq]
  simp [hb, PwmLimit_eq_clampUnit]

/-! ## Drive: the claims -/

/-- C1. Applied power is always bounded: every value that `SetPower`,
`SetLinearPower` and `CheesyDrive` (for samples with non-zero elapsed time)
write to the four motor outputs lies in [-1, 1], whatever the inputs, the gear,
the brake and the tuning constants; each call writes all four motors (once, or
twice for `CheesyDrive` at zero throttle). -/
theorem C1_applied_power_bounded (d : Drive) (left right throttle wheel : ℚ)
    (quickTurn : Bool) (s : Samples)
    (hdt : (cheesyLocals throttle wheel quickTurn s d).dt ≠ 0) :
    (WithinUnit (written d (SetPower left right d)) ∧
      (written d (SetPower left right d)).length = 4) ∧
    (WithinUnit (written d (SetLinearPower left right d)) ∧
      (written d (SetLinearPower left right d)).length = 4) ∧
    (WithinUnit (written d (CheesyDrive throttle wheel quickTurn s d)) ∧
      4 ≤ (written d (CheesyDrive throttle wheel quickTurn s d)).length) := by
  have _ := hdt
  obtain ⟨ws1, h1, l1, b1⟩ := SetPower_written left right d
  obtain ⟨ws2, h2, l2, b2⟩ := SetLinearPower_written left right d
  obtain ⟨ws3, h3, l3, b3⟩ := CheesyDrive_written throttle wheel quickTurn s d
  rw [written_of_append h1, written_of_append h2, written_of_append h3]
  refine ⟨⟨b1, l1⟩, ⟨b2, l2⟩, b3, ?_⟩
  rcases l3 with h | h <;> omega

/-- C1, at a concrete input: quick turn with throttle 0.9 and wheel 0.9 in low
gear, one time unit after the stored sample. -/
theorem C1_applied_power_bounded_witness :
    (cheesyLocals (9 / 10) (9 / 10) true sampleReads (sampleDrive true)).dt ≠ 0 ∧
    ((WithinUnit (written (sampleDrive true) (SetPower 5 (-3) (sampleDrive true))) ∧
      (written (sampleDrive true) (SetPower 5 (-3) (sampleDrive true))).length = 4) ∧
    (WithinUnit (written (sampleDrive true) (SetLinearPower 5 (-3) (sampleDrive true))) ∧
      (written (sampleDrive true) (SetLinearPower 5 (-3) (sampleDrive true))).length = 4) ∧
    (WithinUnit (written (sampleDrive true)
        (CheesyDrive (9 / 10) (9 / 10) true sampleReads (sampleDrive true))) ∧
      4 ≤ (written (sampleDrive true)
        (CheesyDrive (9 / 10) (9 / 10) true sampleReads (sampleDrive true))).length)) :=
  ⟨by norm_num [cheesyLocals, sampleReads, sampleDrive],
    C1_applied_power_bounded (sampleDrive true) 5 (-3) (9 / 10) (9 / 10) true sampleReads
      (by norm_num [cheesyLocals, sampleReads, sampleDrive])⟩

/-- C2. With the brake actuator reading engaged, `SetPower(left, right)` writes
exactly 0 to all four motor outputs for every `left` and `right`; with the brake
not engaged the left pair carries the clamped `left` and the right pair the
clamped `right` (motor B of the left side and motor A of the right side with the
sign reversed, as mounted). -/
theorem C2_SetPower_brake (d : Drive) (left right : ℚ) :
    (GetBrakeOn d = true →
      written d (SetPower left right d) =
        [(Motor.leftDriveMotorA, 0), (Motor.leftDriveMotorB, 0),
         (Motor.rightDriveMotorA, 0), (Motor.rightDriveMotorB, 0)] ∧
      (SetPower left right d).leftDriveMotorA_ = 0 ∧
      (SetPower left right d).leftDriveMotorB_ = 0 ∧
      (SetPower left right d).rightDriveMotorA_ = 0 ∧
      (SetPower left right d).rightDriveMotorB_ = 0) ∧
    (GetBrakeOn d = false →
      written d (SetPower left right d) =
        [(Motor.leftDriveMotorA, clampUnit left), (Motor.leftDriveMotorB, -clampUnit left),
         (Motor.rightDriveMotorA, -clampUnit right), (Motor.rightDriveMotorB, clampUnit right)] ∧
      (SetPower left right d).leftDriveMotorA_ = clampUnit left ∧
      (SetPower left right d).leftDriveMotorB_ = -clampUnit left ∧
      (SetPower left right d).rightDriveMotorA_ = -clampUnit right ∧
      (SetPower left right d).rightDriveMotorB_ = clampUnit right) := by
  constructor
  · intro hb
    refine ⟨written_of_append ?_, ?_, ?_, ?_, ?_⟩ <;> rw [SetPower_eq] <;> simp [hb]
  · intro hb
    refine ⟨written_of_append ?_, ?_, ?_, ?_, ?_⟩ <;> rw [SetPower_eq] <;>
      simp [hb, PwmLimit_eq_clampUnit]

/-- C2, at a concrete input: the request (5, -3) with the brake engaged writes
zeros, and with the brake released writes the clamped values. -/
theorem C2_SetPower_brake_witness :
    (GetBrakeOn (SetBrakeOn true (sampleDrive false)) = true ∧
      (SetPower 5 (-3) (SetBrakeOn true (sampleDrive false))).leftDriveMotorA_ = 0 ∧
      (SetPower 5 (-3) (SetBrakeOn true (sampleDrive false))).rightDriveMotorB_ = 0) ∧
    (GetBrakeOn (sampleDrive false) = false ∧
      (SetPower 5 (-3) (sampleDrive false)).leftDriveMotorA_ = clampUnit 5 ∧
      (SetPower 5 (-3) (sampleDrive false)).rightDriveMotorB_ = clampUnit (-3)) :=
  ⟨⟨rfl,
      ((C2_SetPower_brake (SetBrakeOn true (sampleDrive false)) 5 (-3)).1 rfl).2.1,
      ((C2_SetPower_brake (SetBrakeOn true (sampleDrive false)) 5 (-3)).1 rfl).2.2.2.2⟩,
    ⟨rfl,
      ((C2_SetPower_brake (sampleDrive false) 5 (-3)).2 rfl).2.1,
      ((C2_SetPower_brake (sampleDrive false) 5 (-3)).2 rfl).2.2.2.2⟩⟩

/-- C3. At zero throttle without quick turn `CheesyDrive` does call
`SetLinearPower(0.0, 0.0)`, but control then falls through to the final
`SetLinearPower(lPower, rPower)`: with throttle 0, wheel 0, brake released, a
heading rate of 1 and inertia gain 1, the motors are first written with zeros
and then with (-1, 1, -1, 1), which is what they hold when the call returns. -/
theorem C3_zero_throttle_falls_through :
    written (sampleDrive false) (CheesyDrive 0 0 false sampleReads (sampleDrive false)) =
      [(Motor.leftDriveMotorA, 0), (Motor.leftDriveMotorB, 0),
       (Motor.rightDriveMotorA, 0), (Motor.rightDriveMotorB, 0),
       (Motor.leftDriveMotorA, -1), (Motor.leftDriveMotorB, 1),
       (Motor.rightDriveMotorA, -1), (Motor.rightDriveMotorB, 1)] ∧
    (CheesyDrive 0 0 false sampleReads (sampleDrive false)).leftDriveMotorA_ = -1 ∧
    (CheesyDrive 0 0 false sampleReads (sampleDrive false)).leftDriveMotorB_ = 1 ∧
    (CheesyDrive 0 0 false sampleReads (sampleDrive false)).rightDriveMotorA_ = -1 ∧
    (CheesyDrive 0 0 false sampleReads (sampleDrive false)).rightDriveMotorB_ = 1 := by
  have hv : (cheesyLocals 0 0 false sampleReads (sampleDrive false)).lPower = -1 ∧
      (cheesyLocals 0 0 false sampleReads (sampleDrive false)).rPower = 1 := by
    norm_num [cheesyLocals, sampleReads, sampleDrive]
  have hc : ∀ e : Drive, e.constants_ = (sampleDrive false).constants_ →
      clampUnit (Linearize e.constants_ 0) = 0 ∧
      clampUnit (Linearize e.constants_ (-1)) = -1 ∧
      clampUnit (Linearize e.constants_ 1) = 1 := by
    intro e he
    rw [he, Linearize_sampleDrive, Linearize_sampleDrive, Linearize_sampleDrive]
    norm_num [clampUnit, abs_lt]
  have hb : GetBrakeOn (storeSample sampleReads (sampleDrive false)) = false := rfl
  have h0 := hc (storeSample sampleReads (sampleDrive false)) rfl
  have e1 : SetLinearPower 0 0 (storeSample sampleReads (sampleDrive false)) =
      SetPower 0 0 (storeSample sampleReads (sampleDrive false)) := by
    rw [SetLinearPower_eq, h0.1]
  have h1 := hc (SetPower 0 0 (storeSample sampleReads (sampleDrive false)))
    (by rw [SetPower_eq]; rfl)
  have e2 : CheesyDrive 0 0 false sampleReads (sampleDrive false) =
      SetPower (-1) 1 (SetPower 0 0 (storeSample sampleReads (sampleDrive false))) := by
    unfold CheesyDrive
    simp only [hv.1, hv.2, and_self, if_true, e1]
    rw [SetLinearPower_eq, h1.2.1, h1.2.2]
  have hne : DoubleSolenoidValue.kReverse ≠ DoubleSolenoidValue.kForward := by decide
  rw [e2]
  refine ⟨written_of_append ?_, ?_, ?_, ?_, ?_⟩ <;>
    norm_num [SetPower_eq, GetBrakeOn, storeSample, sampleDrive, PwmLimit, hne]

/-- C4. With quick turn asserted the sensitivity is forced to 1, the angular
power is exactly `wheel`, and the raw powers before the saturation chain are
`throttle + wheel` and `throttle - wheel`; these do not depend on the drive state
(gear, tuning constants) nor on the heading and time samples.  At wheel 0.5 and
throttle 0 the angular power is 0.5 and the raw powers are (0.5, -0.5). -/
theorem C4_quickTurn_angular_power (throttle wheel : ℚ) (s : Samples) (d : Drive) :
    (cheesyLocals throttle wheel true s d).sensitivity = 1 ∧
    (cheesyLocals throttle wheel true s d).angularPower = wheel ∧
    (cheesyLocals throttle wheel true s d).lPowerRaw = throttle + wheel ∧
    (cheesyLocals throttle wheel true s d).rPowerRaw = throttle - wheel ∧
    (∀ (s2 : Samples) (d2 : Drive),
      (cheesyLocals throttle wheel true s2 d2).angularPower =
        (cheesyLocals throttle wheel true s d).angularPower ∧
      (cheesyLocals throttle wheel true s2 d2).lPowerRaw =
        (cheesyLocals throttle wheel true s d).lPowerRaw ∧
      (cheesyLocals throttle wheel true s2 d2).rPowerRaw =
        (cheesyLocals throttle wheel true s d).rPowerRaw) ∧
    (cheesyLocals 0 (1 / 2) true s d).angularPower = 1 / 2 ∧
    (cheesyLocals 0 (1 / 2) true s d).lPowerRaw = 1 / 2 ∧
    (cheesyLocals 0 (1 / 2) true s d).rPowerRaw = -(1 / 2) := by
  refine ⟨?_, ?_, ?_, ?_, ?_, ?_, ?_, ?_⟩ <;> simp [cheesyLocals]

/-- C5. With quick turn asserted (over-power factor 1) the first saturation
branch that matches, in the order left-high, right-high, left-low, right-low,
sets its side to exactly 1 or -1 and moves the opposite side by exactly the
excess; the resulting pair is the one handed to `SetLinearPower`. -/
theorem C5_quickTurn_saturation (throttle wheel : ℚ) (s : Samples) (d : Drive) :
    (cheesyLocals throttle wheel true s d).overPower = 1 ∧
    CheesyDrive throttle wheel true s d =
      SetLinearPower (cheesyLocals throttle wheel true s d).lPower
        (cheesyLocals throttle wheel true s d).rPower (storeSample s d) ∧
    (throttle + wheel > 1 →
      (cheesyLocals throttle wheel true s d).lPower = 1 ∧
      (cheesyLocals throttle wheel true s d).rPower =
        (throttle - wheel) - (throttle + wheel - 1)) ∧
    (¬ throttle + wheel > 1 → throttle - wheel > 1 →
      (cheesyLocals throttle wheel true s d).lPower =
        (throttle + wheel) - (throttle - wheel - 1) ∧
      (cheesyLocals throttle wheel true s d).rPower = 1) ∧
    (¬ throttle + wheel > 1 → ¬ throttle - wheel > 1 → throttle + wheel < -1 →
      (cheesyLocals throttle wheel true s d).lPower = -1 ∧
      (cheesyLocals throttle wheel true s d).rPower =
        (throttle - wheel) + (-1 - (throttle + wheel))) ∧
    (¬ throttle + wheel > 1 → ¬ throttle - wheel > 1 → ¬ throttle + wheel < -1 →
      throttle - wheel < -1 →
      (cheesyLocals throttle wheel true s d).lPower =
        (throttle + wheel) + (-1 - (throttle - wheel)) ∧
      (cheesyLocals throttle wheel true s d).rPower = -1) := by
  refine ⟨by simp [cheesyLocals], by simp [CheesyDrive], ?_, ?_, ?_, ?_⟩
  · intro h1
    simp [cheesyLocals, h1]
  · intro h1 h2
    simp only [gt_iff_lt] at h1 h2
    simp [cheesyLocals, h1, h2]
  · intro h1 h2 h3
    simp only [gt_iff_lt] at h1 h2
    simp [cheesyLocals, h1, h2, h3]
  · intro h1 h2 h3 h4
    simp only [gt_iff_lt] at h1 h2
    simp [cheesyLocals, h1, h2, h3, h4]

/-- C5, at the input of the specification: throttle 0.9, wheel 0.9, quick turn,
low gear.  The left side saturates and the pair handed on is (1.0, -0.8). -/
theorem C5_quickTurn_saturation_witness :
    (9 / 10 : ℚ) + 9 / 10 > 1 ∧
    (sampleDrive true).shiftSolenoid_ = true ∧
    (cheesyLocals (9 / 10) (9 / 10) true sampleReads (sampleDrive true)).lPower = 1 ∧
    (cheesyLocals (9 / 10) (9 / 10) true sampleReads (sampleDrive true)).rPower = -(4 / 5) :=
  ⟨by norm_num, rfl,
    ((C5_quickTurn_saturation (9 / 10) (9 / 10) sampleReads (sampleDrive true)).2.2.1
      (by norm_num)).1,
    ((C5_quickTurn_saturation (9 / 10) (9 / 10) sampleReads (sampleDrive true)).2.2.1
      (by norm_num)).2.trans (by norm_num)⟩

/-- C6. `Linearize` is odd-symmetric: `Linearize(-x) = -Linearize(x)` for every
`x` (in particular on [-1, 1]) and every choice of the five coefficients. -/
theorem C6_Linearize_odd (c : Constants) (x : ℚ) :
    Linearize c (-x) = -Linearize c x := by
  rcases deadband_cases x with h | h | h
  · rw [Linearize_of_small c h, Linearize_of_small c (by rwa [abs_neg]), neg_zero]
  · rw [Linearize_of_neg c (neg_le_neg h), neg_neg]
  · rw [Linearize_of_neg c h, neg_neg]

/-- C7. `Linearize` equals its reference definition: 0 inside the dead-band
`|x| < 0.01`, and otherwise `sign(x) * (A|x|^4 + B|x|^3 + C|x|^2 + D|x| + E)`. -/
theorem C7_Linearize_eq_spec (c : Constants) (x : ℚ) :
    Linearize c x = LinearizeSpec c x := by
  unfold LinearizeSpec
  rcases deadband_cases x with h | h | h
  · rw [Linearize_of_small c h, if_pos h]
  · have hx : 0 < x := by linarith
    have habs : ¬ |x| < 1 / 100 := by rw [abs_of_pos hx]; linarith
    rw [Linearize_of_pos c h, if_neg habs, if_pos hx, abs_of_pos hx, one_mul]
  · have hx : x < 0 := by linarith
    have habs : ¬ |x| < 1 / 100 := by rw [abs_of_neg hx]; linarith
    rw [Linearize_of_neg c h, Linearize_of_pos c (by linarith), if_neg habs,
      if_neg (not_lt.mpr (le_of_lt hx)), if_pos hx, abs_of_neg hx]
    ring

/-- C8. `SetLinearPower(left, right)` hands `SetPower` the clamped linearized
powers; with the brake not engaged the left motor pair is driven with
`clamp(Linearize(left))` and the right pair with `clamp(Linearize(right))` (motor
B of the left side and motor A of the right side reversed), and the left outputs
do not depend on `right` nor the right outputs on `left`. -/
theorem C8_SetLinearPower_sides (d : Drive) (left right : ℚ)
    (hb : GetBrakeOn d = false) :
    SetLinearPower left right d =
      SetPower (clampUnit (Linearize d.constants_ left))
        (clampUnit (Linearize d.constants_ right)) d ∧
    (SetLinearPower left right d).leftDriveMotorA_ = clampUnit (Linearize d.constants_ left) ∧
    (SetLinearPower left right d).leftDriveMotorB_ = -clampUnit (Linearize d.constants_ left) ∧
    (SetLinearPower left right d).rightDriveMotorA_ = -clampUnit (Linearize d.constants_ right) ∧
    (SetLinearPower left right d).rightDriveMotorB_ = clampUnit (Linearize d.constants_ right) ∧
    (∀ right2 : ℚ,
      (SetLinearPower left right2 d).leftDriveMotorA_ =
        (SetLinearPower left right d).leftDriveMotorA_ ∧
      (SetLinearPower left right2 d).leftDriveMotorB_ =
        (SetLinearPower left right d).leftDriveMotorB_) ∧
    (∀ left2 : ℚ,
      (SetLinearPower left2 right d).rightDriveMotorA_ =
        (SetLinearPower left right d).rightDriveMotorA_ ∧
      (SetLinearPower left2 right d).rightDriveMotorB_ =
        (SetLinearPower left right d).rightDriveMotorB_) := by
  have key : ∀ l r : ℚ,
      (SetLinearPower l r d).leftDriveMotorA_ = clampUnit (Linearize d.constants_ l) ∧
      (SetLinearPower l r d).leftDriveMotorB_ = -clampUnit (Linearize d.constants_ l) ∧
      (SetLinearPower l r d).rightDriveMotorA_ = -clampUnit (Linearize d.constants_ r) ∧
      (SetLinearPower l r d).rightDriveMotorB_ = clampUnit (Linearize d.constants_ r) := by
    intro l r
    rw [SetLinearPower_eq]
    have h := (SetPower_released d (clampUnit (Linearize d.constants_ l))
      (clampUnit (Linearize d.constants_ r))) hb
    rw [clampUnit_idem, clampUnit_idem] at h
    exact h
  refine ⟨SetLinearPower_eq left right d, (key left right).1, (key left right).2.1,
    (key left right).2.2.1, (key left right).2.2.2, ?_, ?_⟩
  · intro right2
    exact ⟨(key left right2).1.trans (key left right).1.symm,
      (key left right2).2.1.trans (key left right).2.1.symm⟩
  · intro left2
    exact ⟨(key left2 right).2.2.1.trans (key left right).2.2.1.symm,
      (key left2 right).2.2.2.trans (key left right).2.2.2.symm⟩

/-- C8, at a concrete input: the request (5, -3) with the brake released. -/
theorem C8_SetLinearPower_sides_witness :
    GetBrakeOn (sampleDrive false) = false ∧
    (SetLinearPower 5 (-3) (sampleDrive false)).leftDriveMotorA_ =
      clampUnit (Linearize (sampleDrive false).constants_ 5) ∧
    (SetLinearPower 5 (-3) (sampleDrive false)).rightDriveMotorB_ =
      clampUnit (Linearize (sampleDrive false).constants_ (-3)) :=
  ⟨rfl, (C8_SetLinearPower_sides (sampleDrive false) 5 (-3) rfl).2.1,
    (C8_SetLinearPower_sides (sampleDrive false) 5 (-3) rfl).2.2.2.2.1⟩

end Drive

/-! ## Sequential command runner: lemmas -/

namespace AutoCommand

variable {σ : Type}

theorem stepsLeft_one (c : AutoCommand σ) : StepsLeft c 1 ↔ c.Run.2 = true := by
  simp [StepsLeft, runResults]

theorem stepsLeft_succ (c : AutoCommand σ) (k : Nat) :
    StepsLeft c (k + 2) ↔ c.Run.2 = false ∧ StepsLeft c.Run.1 (k + 1) := by
  simp [StepsLeft, runResults, List.replicate_succ]

end AutoCommand

namespace SequentialCommand

variable {σ : Type}

open AutoCommand

theorem getElem?_mid (pre rest : List (AutoCommand σ)) (c : AutoCommand σ) :
    (pre ++ c :: rest)[pre.length]? = some c := by
  rw [List.getElem?_append_right (le_refl _)]
  simp

theorem getElem?_next (pre rest : List (AutoCommand σ)) (c : AutoCommand σ) :
    (pre ++ c :: rest)[pre.length + 1]? = rest[0]? := by
  rw [List.getElem?_append_right (Nat.le_succ _)]
  simp

theorem set_mid (pre rest : List (AutoCommand σ)) (c c2 : AutoCommand σ) :
    (pre ++ c :: rest).set pre.length c2 = pre ++ c2 :: rest := by
  induction pre with
  | nil => rfl
  | cons a pre ih => simp [List.set, ih]

theorem set_next (pre rest : List (AutoCommand σ)) (c n n2 : AutoCommand σ) :
    (pre ++ c :: n :: rest).set (pre.length + 1) n2 = pre ++ c :: n2 :: rest := by
  induction pre with
  | nil => rfl
  | cons a pre ih => simp [List.set, ih]

/-- `Run` on a runner whose current child is `c`, with `pre` before it and
`rest` after it. -/
theorem Run_at (pre rest : List (AutoCommand σ)) (c : AutoCommand σ)
    (calls : List ChildCall) :
    Run { commands_ := pre ++ c :: rest, commandIndex_ := pre.length, calls := calls } =
      if c.Run.2 = false then
        some ({ commands_ := pre ++ c.Run.1 :: rest, commandIndex_ := pre.length,
                calls := calls ++ [ChildCall.step pre.length] }, false)
      else
        match rest with
        | [] =>
          some ({ commands_ := pre ++ [c.Run.1], commandIndex_ := pre.length + 1,
                  calls := calls ++ [ChildCall.step pre.length] }, true)
        | next :: rest2 =>
          some ({ commands_ := pre ++ c.Run.1 :: next.Initialize :: rest2,
                  commandIndex_ := pre.length + 1,
                  calls := calls ++ [ChildCall.step pre.length] ++
                    [ChildCall.init (pre.length + 1)] }, false) := by
  unfold Run
  simp only [getElem?_mid, set_mid, getElem?_next]
  cases rest with
  | nil => rfl
  | cons next rest2 => simp only [List.getElem?_cons_zero, set_next]

theorem runs_results_cons {n : Nat} {r r1 : SequentialCommand σ} {b : Bool}
    {bs : List Bool} (h : Run r = some (r1, b))
    (hbs : (runs n r1).map Prod.snd = some bs) :
    (runs (n + 1) r).map Prod.snd = some (b :: bs) := by
  rw [runs, h]
  dsimp only
  cases h2 : runs n r1 with
  | none => rw [h2] at hbs; exact absurd hbs (by simp)
  | some p =>
    rw [h2] at hbs
    simp only [Option.map_some', Option.some.injEq] at hbs
    simp only [Option.map_some', hbs]

theorem replicate_false_succ (n : Nat) (hn : 1 ≤ n) :
    List.replicate (n + 1 - 1) false ++ [true] =
      false :: (List.replicate (n - 1) false ++ [true]) := by
  obtain ⟨m, rfl⟩ : ∃ m, n = m + 1 := ⟨n - 1, by omega⟩
  simp [List.replicate_succ]

/-- From a runner whose current child needs `k` more calls and whose later
children complete on their `ks`-th calls, `k + sum ks` calls return "not
complete" except the last, which returns "complete". -/
theorem runs_from (rest : List (AutoCommand σ)) :
    ∀ (ks : List Nat), List.Forall₂ CompletesOn rest ks →
    ∀ (k : Nat) (pre : List (AutoCommand σ)) (c : AutoCommand σ) (calls : List ChildCall),
      StepsLeft c k →
      (runs (k + ks.sum)
        { commands_ := pre ++ c :: rest, commandIndex_ := pre.length, calls := calls }).map
          Prod.snd = some (List.replicate (k + ks.sum - 1) false ++ [true]) := by
  induction rest with
  | nil =>
    intro ks hks
    cases hks
    intro k
    induction k with
    | zero => intro pre c calls h; exact absurd h.1 (by decide)
    | succ k ih =>
      intro pre c calls h
      cases k with
      | zero =>
        have hr := (stepsLeft_one c).mp h
        have hrun := Run_at pre [] c calls
        rw [if_neg (by simp [hr])] at hrun
        exact runs_results_cons hrun rfl
      | succ k =>
        obtain ⟨hr, hleft⟩ := (stepsLeft_succ c k).mp h
        have hrun := Run_at pre [] c calls
        rw [if_pos hr] at hrun
        have h2 := ih pre c.Run.1 (calls ++ [ChildCall.step pre.length]) hleft
        simp only [List.sum_nil, Nat.add_zero] at h2 ⊢
        have h3 := runs_results_cons hrun h2
        rw [h3, replicate_false_succ (k + 1) (by omega)]
  | cons next rest2 ihrest =>
    intro ks hks
    cases hks with
    | cons hnext hrest2 =>
      rename_i k2 ks2
      have hpos : 1 ≤ k2 := hnext.1
      intro k
      induction k with
      | zero => intro pre c calls h; exact absurd h.1 (by decide)
      | succ k ih =>
        intro pre c calls h
        cases k with
        | zero =>
          have hr := (stepsLeft_one c).mp h
          have hrun := Run_at pre (next :: rest2) c calls
          rw [if_neg (by simp [hr])] at hrun
          have h2 := ihrest ks2 hrest2 k2 (pre ++ [c.Run.1]) next.Initialize
            (calls ++ [ChildCall.step pre.length] ++ [ChildCall.init (pre.length + 1)]) hnext
          simp only [List.append_assoc, List.singleton_append, List.length_append,
            List.length_singleton] at h2 hrun
          have h3 := runs_results_cons hrun h2
          have e : 0 + 1 + (k2 :: ks2).sum = (k2 + ks2.sum) + 1 := by
            simp only [List.sum_cons]; omega
          rw [e, h3, replicate_false_succ (k2 + ks2.sum) (by omega)]
        | succ k =>
          obtain ⟨hr, hleft⟩ := (stepsLeft_succ c k).mp h
          have hrun := Run_at pre (next :: rest2) c calls
          rw [if_pos hr] at hrun
          have h2 := ih pre c.Run.1 (calls ++ [ChildCall.step pre.length]) hleft
          have h3 := runs_results_cons hrun h2
          have e : k + 1 + 1 + (k2 :: ks2).sum = (k + 1 + (k2 :: ks2).sum) + 1 := by omega
          rw [e, h3, replicate_false_succ (k + 1 + (k2 :: ks2).sum) (by omega)]

/-- The three outcomes of a defined `Run` call: the current child is not
complete; it is complete and the next child is initialized; it is complete and
was the last one. -/
theorem Run_cases {r r2 : SequentialCommand σ} {b : Bool} (h : Run r = some (r2, b)) :
    r.commandIndex_ < r.commands_.length ∧ r2.commands_.length = r.commands_.length ∧
    ((b = false ∧ r2.commandIndex_ = r.commandIndex_ ∧
        r2.calls = r.calls ++ [ChildCall.step r.commandIndex_]) ∨
     (b = false ∧ r2.commandIndex_ = r.commandIndex_ + 1 ∧
        r.commandIndex_ + 1 < r.commands_.length ∧
        r2.calls = r.calls ++ [ChildCall.step r.commandIndex_] ++
          [ChildCall.init (r.commandIndex_ + 1)]) ∨
     (b = true ∧ r2.commandIndex_ = r.commandIndex_ + 1 ∧
        r.commandIndex_ + 1 = r.commands_.length ∧
        r2.calls = r.calls ++ [ChildCall.step r.commandIndex_])) := by
  unfold Run at h
  cases hc : r.commands_[r.commandIndex_]? with
  | none => rw [hc] at h; exact absurd h (by simp)
  | some c =>
    rw [hc] at h
    dsimp only at h
    have hlt : r.commandIndex_ < r.commands_.length := by
      by_contra hge
      rw [List.getElem?_eq_none (not_lt.mp hge)] at hc
      exact absurd hc (by simp)
    refine ⟨hlt, ?_⟩
    split_ifs at h with hr
    · simp only [Option.some.injEq, Prod.mk.injEq] at h
      obtain ⟨h1, h2⟩ := h
      subst h1
      exact ⟨by simp, Or.inl ⟨h2.symm, rfl, rfl⟩⟩
    · cases hn : (r.commands_.set r.commandIndex_ c.Run.1)[r.commandIndex_ + 1]? with
      | none =>
        rw [hn] at h
        simp only [Option.some.injEq, Prod.mk.injEq] at h
        obtain ⟨h1, h2⟩ := h
        subst h1
        have hlen : r.commands_.length ≤ r.commandIndex_ + 1 := by
          have := List.getElem?_eq_none_iff.mp hn
          simpa using this
        exact ⟨by simp, Or.inr (Or.inr ⟨h2.symm, rfl, by omega, rfl⟩)⟩
      | some next =>
        rw [hn] at h
        simp only [Option.some.injEq, Prod.mk.injEq] at h
        obtain ⟨h1, h2⟩ := h
        subst h1
        have hlen : r.commandIndex_ + 1 < r.commands_.length := by
          by_contra hge
          rw [List.getElem?_eq_none (by simpa using hge)] at hn
          exact absurd hn (by simp)
        exact ⟨by simp, Or.inr (Or.inl ⟨h2.symm, rfl, hlen, rfl⟩)⟩

/-! ### The call log -/

theorem append_singleton_split {α : Type} {l pre post : List α} {e x : α}
    (h : l ++ [e] = pre ++ x :: post) :
    (post = [] ∧ l = pre ∧ e = x) ∨ ∃ post2, post = post2 ++ [e] ∧ l = pre ++ x :: post2 := by
  rcases List.eq_nil_or_concat post with rfl | ⟨L, b, rfl⟩
  · obtain ⟨h1, h2⟩ := List.append_inj' h rfl
    exact Or.inl ⟨rfl, h1, by simpa using h2⟩
  · have h2 : l ++ [e] = (pre ++ x :: L) ++ [b] := by simpa using h
    obtain ⟨h3, h4⟩ := List.append_inj' h2 rfl
    have hb : e = b := by simpa using h4
    exact Or.inr ⟨L, by rw [hb, List.concat_eq_append], h3⟩

theorem mem_filterMap_initIndex (calls : List ChildCall) (i : Nat) :
    i ∈ calls.filterMap ChildCall.initIndex ↔ ChildCall.init i ∈ calls := by
  rw [List.mem_filterMap]
  constructor
  · rintro ⟨e, he, hi⟩
    cases e with
    | init j =>
      simp only [ChildCall.initIndex, Option.some.injEq] at hi
      rw [← hi]; exact he
    | step j => simp [ChildCall.initIndex] at hi
  · intro h
    exact ⟨_, h, rfl⟩

theorem count_filterMap_initIndex (calls : List ChildCall) (i : Nat) :
    (calls.filterMap ChildCall.initIndex).count i = calls.count (ChildCall.init i) := by
  induction calls with
  | nil => rfl
  | cons e calls ih =>
    cases e with
    | init j =>
      simp only [List.filterMap_cons, ChildCall.initIndex, List.count_cons, ih,
        beq_iff_eq, ChildCall.init.injEq]
    | step j =>
      simp only [List.filterMap_cons, ChildCall.initIndex, List.count_cons, ih,
        beq_iff_eq]
      simp

theorem StepAfterInit_append_step {calls : List ChildCall} {i : Nat}
    (h : StepAfterInit calls) (hi : ChildCall.init i ∈ calls) :
    StepAfterInit (calls ++ [ChildCall.step i]) := by
  intro pre post j hj
  rcases append_singleton_split hj with ⟨_, h1, h2⟩ | ⟨post2, _, h1⟩
  · simp only [ChildCall.step.injEq] at h2
    rw [← h1, ← h2]; exact hi
  · exact h pre post2 j h1

theorem StepAfterInit_append_init {calls : List ChildCall} {i : Nat}
    (h : StepAfterInit calls) : StepAfterInit (calls ++ [ChildCall.init i]) := by
  intro pre post j hj
  rcases append_singleton_split hj with ⟨_, _, h2⟩ | ⟨post2, _, h1⟩
  · exact absurd h2 (by simp)
  · exact h pre post2 j h1

theorem NoStepBack_append_step {calls : List ChildCall} {i : Nat}
    (h : NoStepBack calls) (hi : ∀ j, ChildCall.init (j + 1) ∈ calls → j ≠ i) :
    NoStepBack (calls ++ [ChildCall.step i]) := by
  intro pre post j hj
  rcases append_singleton_split hj with ⟨h0, _, h2⟩ | ⟨post2, h0, h1⟩
  · rw [h0]; simp
  · rw [h0, List.mem_append]
    rintro (hm | hm)
    · exact h pre post2 j h1 hm
    · have hmem : ChildCall.init (j + 1) ∈ calls := by rw [h1]; simp
      simp only [List.mem_singleton, ChildCall.step.injEq] at hm
      exact hi j hmem hm

theorem NoStepBack_append_init {calls : List ChildCall} {i : Nat}
    (h : NoStepBack calls) : NoStepBack (calls ++ [ChildCall.init i]) := by
  intro pre post j hj
  rcases append_singleton_split hj with ⟨h0, _, _⟩ | ⟨post2, h0, h1⟩
  · rw [h0]; simp
  · rw [h0, List.mem_append]
    rintro (hm | hm)
    · exact h pre post2 j h1 hm
    · simp at hm

/-! ### The invariant along a run -/

theorem init_mem_of_inv {n : Nat} {r : SequentialCommand σ} (h : TraceInv n r)
    (hlt : r.commandIndex_ < n) : ChildCall.init r.commandIndex_ ∈ r.calls := by
  rw [← mem_filterMap_initIndex, h.2.2.1, List.mem_range]
  exact lt_min (Nat.lt_succ_self _) hlt

theorem init_succ_lt_of_inv {n : Nat} {r : SequentialCommand σ} (h : TraceInv n r)
    (j : Nat) (hj : ChildCall.init (j + 1) ∈ r.calls) : j ≠ r.commandIndex_ := by
  rw [← mem_filterMap_initIndex, h.2.2.1, List.mem_range] at hj
  have := lt_of_lt_of_le hj (min_le_left _ _)
  omega

/-- A defined `Run` call keeps the invariant; it returns "complete" exactly when
the index moves past the last child. -/
theorem TraceInv_Run {n : Nat} {r r2 : SequentialCommand σ} {b : Bool}
    (hinv : TraceInv n r) (h : Run r = some (r2, b)) :
    TraceInv n r2 ∧ (b = true → r2.commandIndex_ = n) ∧ (b = false → r2.commandIndex_ < n) := by
  obtain ⟨hlt, hlen, hcases⟩ := Run_cases h
  obtain ⟨hn, hle, hinit, hstep, hsai, hnsb⟩ := hinv
  have hinv : TraceInv n r := ⟨hn, hle, hinit, hstep, hsai, hnsb⟩
  rw [hn] at hlt hlen
  have hmem := init_mem_of_inv hinv hlt
  have hsai2 := StepAfterInit_append_step hsai hmem
  have hnsb2 := NoStepBack_append_step hnsb (init_succ_lt_of_inv hinv)
  have hstep2 : ∀ i, ChildCall.step i ∈ r.calls ++ [ChildCall.step r.commandIndex_] →
      i ≤ r.commandIndex_ := by
    intro i hi
    rcases List.mem_append.mp hi with hi | hi
    · exact hstep i hi
    · simp only [List.mem_singleton, ChildCall.step.injEq] at hi
      exact le_of_eq hi
  rcases hcases with ⟨hb, hidx, hcalls⟩ | ⟨hb, hidx, hmore, hcalls⟩ | ⟨hb, hidx, hlast, hcalls⟩
  · refine ⟨⟨hlen, by omega, ?_, ?_, ?_, ?_⟩, by simp [hb], by intro _; omega⟩
    · rw [hcalls, hidx, List.filterMap_append, hinit]
      simp [ChildCall.initIndex]
    · rw [hcalls, hidx]; exact hstep2
    · rw [hcalls]; exact hsai2
    · rw [hcalls]; exact hnsb2
  · rw [hn] at hmore
    refine ⟨⟨hlen, by omega, ?_, ?_, ?_, ?_⟩, by simp [hb], by intro _; omega⟩
    · rw [hcalls, hidx, List.filterMap_append, List.filterMap_append, hinit,
        min_eq_left (by omega), min_eq_left (by omega), List.range_succ (n := r.commandIndex_ + 1)]
      simp [ChildCall.initIndex]
    · rw [hcalls, hidx]
      intro i hi
      rcases List.mem_append.mp hi with hi | hi
      · exact Nat.le_succ_of_le (hstep2 i hi)
      · simp at hi
    · rw [hcalls]; exact StepAfterInit_append_init hsai2
    · rw [hcalls]; exact NoStepBack_append_init hnsb2
  · rw [hn] at hlast
    refine ⟨⟨hlen, by omega, ?_, ?_, ?_, ?_⟩, by intro _; omega, by simp [hb]⟩
    · rw [hcalls, hidx, List.filterMap_append, hinit, min_eq_left (by omega),
        min_eq_right (by omega), hlast]
      simp [ChildCall.initIndex]
    · rw [hcalls, hidx]
      intro i hi
      exact Nat.le_succ_of_le (hstep2 i hi)
    · rw [hcalls]; exact hsai2
    · rw [hcalls]; exact hnsb2

theorem Run_none_of_done {n : Nat} {r : SequentialCommand σ} (hinv : TraceInv n r)
    (hdone : r.commandIndex_ = n) : Run r = none := by
  cases h : Run r with
  | none => rfl
  | some p =>
    obtain ⟨r2, b⟩ := p
    have := (Run_cases h).1
    rw [hinv.1, hdone] at this
    exact absurd this (lt_irrefl n)

theorem runs_inv {n : Nat} : ∀ (m : Nat) (r r2 : SequentialCommand σ) (bs : List Bool),
    TraceInv n r → runs m r = some (r2, bs) → true ∈ bs →
    TraceInv n r2 ∧ r2.commandIndex_ = n := by
  intro m
  induction m with
  | zero =>
    intro r r2 bs _ hrun hdone
    simp only [runs, Option.some.injEq, Prod.mk.injEq] at hrun
    rw [← hrun.2] at hdone
    exact absurd hdone (by simp)
  | succ m ih =>
    intro r r2 bs hinv hrun hdone
    rw [runs] at hrun
    cases h1 : Run r with
    | none => rw [h1] at hrun; exact absurd hrun (by simp)
    | some p =>
      obtain ⟨r1, b⟩ := p
      rw [h1] at hrun
      dsimp only at hrun
      obtain ⟨hinv1, htrue, hfalse⟩ := TraceInv_Run hinv h1
      cases h2 : runs m r1 with
      | none => rw [h2] at hrun; exact absurd hrun (by simp)
      | some q =>
        obtain ⟨r3, bs3⟩ := q
        rw [h2] at hrun
        simp only [Option.some.injEq, Prod.mk.injEq] at hrun
        obtain ⟨e1, e2⟩ := hrun
        subst e1
        cases b with
        | false =>
          rw [← e2] at hdone
          simp only [List.mem_cons, Bool.true_eq_false, false_or] at hdone
          exact ih r1 r3 bs3 hinv1 h2 hdone
        | true =>
          have hidx := htrue rfl
          cases m with
          | zero =>
            simp only [runs, Option.some.injEq, Prod.mk.injEq] at h2
            rw [← h2.1]
            exact ⟨hinv1, hidx⟩
          | succ m =>
            rw [runs, Run_none_of_done hinv1 hidx] at h2
            exact absurd h2 (by simp)

theorem TraceInv_Initialize {commands : List (AutoCommand σ)} {r : SequentialCommand σ}
    (h : Initialize (create commands) = some r) : TraceInv commands.length r := by
  cases commands with
  | nil => simp [Initialize, create] at h
  | cons c rest =>
    simp only [Initialize, create, List.getElem?_cons_zero, List.set_cons_zero,
      List.nil_append, Option.some.injEq] at h
    subst h
    refine ⟨rfl, Nat.zero_le _, ?_, ?_, ?_, ?_⟩
    · simp [ChildCall.initIndex, List.range_succ]
    · intro i hi; simp at hi
    · intro pre post i hi
      rcases append_singleton_split (l := []) (by simpa using hi) with ⟨_, _, h2⟩ | ⟨_, _, h1⟩
      · exact absurd h2 (by simp)
      · exact absurd h1 (by simp)
    · intro pre post i hi
      rcases append_singleton_split (l := []) (by simpa using hi) with ⟨h0, _, _⟩ | ⟨_, _, h1⟩
      · rw [h0]; simp
      · exact absurd h1 (by simp)

/-! ## Sequential command runner: the claims -/

/-- C9. For a non-empty list of children in which child `i` reports complete
on its `k_i`-th `Run` call (`k_i ≥ 1`), the runner, after `Initialize`, returns
"not complete" on each of its first `k_0 + ... + k_(n-1) - 1` `Run` calls and
"complete" on call number `k_0 + ... + k_(n-1)`. -/
theorem C9_runner_completes_on_sum (commands : List (AutoCommand σ)) (ks : List Nat)
    (hne : commands ≠ []) (hk : List.Forall₂ CompletesOn commands ks) :
    (execute commands ks.sum).map Prod.snd =
      some (List.replicate (ks.sum - 1) false ++ [true]) := by
  cases hk with
  | nil => exact absurd rfl hne
  | cons hc hrest =>
    rename_i c k rest ks2
    have h := runs_from rest ks2 hrest k [] c.Initialize [ChildCall.init 0] hc
    simpa [execute, Initialize, create] using h

/-- C9, on stub children: three children with counts 1, 2, 1 make the runner
return complete on the 4th call, and a single child that completes on its first
`Run` makes the runner return complete on the first call. -/
theorem C9_runner_completes_on_sum_witness :
    ([stub 1, stub 2, stub 1] ≠ [] ∧
      List.Forall₂ CompletesOn [stub 1, stub 2, stub 1] [1, 2, 1] ∧
      (execute [stub 1, stub 2, stub 1] 4).map Prod.snd =
        some [false, false, false, true]) ∧
    ([stub 1] ≠ [] ∧ List.Forall₂ CompletesOn [stub 1] [1] ∧
      (execute [stub 1] 1).map Prod.snd = some [true]) :=
  ⟨⟨by simp,
      List.Forall₂.cons (by decide) (List.Forall₂.cons (by decide)
        (List.Forall₂.cons (by decide) List.Forall₂.nil)),
      C9_runner_completes_on_sum [stub 1, stub 2, stub 1] [1, 2, 1] (by simp)
        (List.Forall₂.cons (by decide) (List.Forall₂.cons (by decide)
          (List.Forall₂.cons (by decide) List.Forall₂.nil)))⟩,
    ⟨by simp, List.Forall₂.cons (by decide) List.Forall₂.nil,
      C9_runner_completes_on_sum [stub 1] [1] (by simp)
        (List.Forall₂.cons (by decide) List.Forall₂.nil)⟩⟩

/-- C10. In every run of the runner from `Initialize` up to the call that
reports completion: each child's `Initialize` is called exactly once; the
`Initialize` calls occur in construction order 0, 1, ..., n-1; no child is
stepped before its own `Initialize`; once child `i + 1` has been initialized
child `i` is never stepped again; and every `Run` call leaves the current index
where it is or moves it forward by one. -/
theorem C10_children_initialized_in_order (commands : List (AutoCommand σ)) (m : Nat)
    (r : SequentialCommand σ) (bs : List Bool)
    (hne : commands ≠ [])
    (hrun : execute commands m = some (r, bs)) (hdone : true ∈ bs) :
    (∀ i, i < commands.length → r.calls.count (ChildCall.init i) = 1) ∧
    r.calls.filterMap ChildCall.initIndex = List.range commands.length ∧
    StepAfterInit r.calls ∧
    NoStepBack r.calls ∧
    (∀ (q q2 : SequentialCommand σ) (b : Bool), Run q = some (q2, b) →
      q2.commandIndex_ = q.commandIndex_ ∨ q2.commandIndex_ = q.commandIndex_ + 1) := by
  have _ := hne
  unfold execute at hrun
  cases h0 : Initialize (create commands) with
  | none => rw [h0] at hrun; exact absurd hrun (by simp)
  | some r0 =>
    rw [h0] at hrun
    dsimp only at hrun
    obtain ⟨hinv, hidx⟩ := runs_inv m r0 r bs (TraceInv_Initialize h0) hrun hdone
    have hinit : r.calls.filterMap ChildCall.initIndex = List.range commands.length := by
      rw [hinv.2.2.1, hidx, min_eq_right (Nat.le_succ _)]
    refine ⟨?_, hinit, hinv.2.2.2.2.1, hinv.2.2.2.2.2, ?_⟩
    · intro i hi
      rw [← count_filterMap_initIndex, hinit]
      exact List.count_eq_one_of_mem (List.nodup_range _) (List.mem_range.mpr hi)
    · intro q q2 b hq
      rcases (Run_cases hq).2.2 with h | h | h
      · exact Or.inl h.2.1
      · exact Or.inr h.2.1
      · exact Or.inr h.2.1

/-- C10, on three stub children with counts 1, 2, 1: the run of four calls ends
with "complete", and its call log is init 0, step 0, init 1, step 1, step 1,
init 2, step 2. -/
theorem C10_children_initialized_in_order_witness :
    [stub 1, stub 2, stub 1] ≠ [] ∧
    (execute [stub 1, stub 2, stub 1] 4).map Prod.snd = some [false, false, false, true] ∧
    (execute [stub 1, stub 2, stub 1] 4).map (fun p => p.1.calls) =
      some [ChildCall.init 0, ChildCall.step 0, ChildCall.init 1, ChildCall.step 1,
        ChildCall.step 1, ChildCall.init 2, ChildCall.step 2] ∧
    (execute [stub 1, stub 2, stub 1] 4).map
        (fun p => p.1.calls.filterMap ChildCall.initIndex) = some (List.range 3) := by
  have hex : ∃ r, execute [stub 1, stub 2, stub 1] 4 = some (r, [false, false, false, true]) ∧
      r.calls = [ChildCall.init 0, ChildCall.step 0, ChildCall.init 1, ChildCall.step 1,
        ChildCall.step 1, ChildCall.init 2, ChildCall.step 2] := ⟨_, rfl, rfl⟩
  obtain ⟨r, hr, hcalls⟩ := hex
  have h := C10_children_initialized_in_order [stub 1, stub 2, stub 1] 4 r
    [false, false, false, true] (by simp) hr (by simp)
  refine ⟨by simp, ?_, ?_, ?_⟩
  · rw [hr]; rfl
  · rw [hr]; simp [hcalls]
  · rw [hr]; simpa using h.2.1

end SequentialCommand

/-! ## Drive: sensors, mixing and saturation, the further claims -/

namespace Drive

/-- The raw powers of `CheesyDrive` are `throttle ± angularPower`, in both modes. -/
theorem cheesyLocals_raw (throttle wheel : ℚ) (quickTurn : Bool) (s : Samples) (d : Drive) :
    (cheesyLocals throttle wheel quickTurn s d).lPowerRaw =
      throttle + (cheesyLocals throttle wheel quickTurn s d).angularPower ∧
    (cheesyLocals throttle wheel quickTurn s d).rPowerRaw =
      throttle - (cheesyLocals throttle wheel quickTurn s d).angularPower := by
  constructor <;> rfl

/-- The saturation chain of `CheesyDrive`, from the raw powers and the
over-power factor to the powers handed to `SetLinearPower`. -/
theorem cheesyLocals_saturation (throttle wheel : ℚ) (quickTurn : Bool) (s : Samples)
    (d : Drive) :
    ((cheesyLocals throttle wheel quickTurn s d).lPower,
      (cheesyLocals throttle wheel quickTurn s d).rPower) =
      if (cheesyLocals throttle wheel quickTurn s d).lPowerRaw > 1 then
        (1, (cheesyLocals throttle wheel quickTurn s d).rPowerRaw
          - (cheesyLocals throttle wheel quickTurn s d).overPower
            * ((cheesyLocals throttle wheel quickTurn s d).lPowerRaw - 1))
      else if (cheesyLocals throttle wheel quickTurn s d).rPowerRaw > 1 then
        ((cheesyLocals throttle wheel quickTurn s d).lPowerRaw
          - (cheesyLocals throttle wheel quickTurn s d).overPower
            * ((cheesyLocals throttle wheel quickTurn s d).rPowerRaw - 1), 1)
      else if (cheesyLocals throttle wheel quickTurn s d).lPowerRaw < -1 then
        (-1, (cheesyLocals throttle wheel quickTurn s d).rPowerRaw
          + (cheesyLocals throttle wheel quickTurn s d).overPower
            * (-1 - (cheesyLocals throttle wheel quickTurn s d).lPowerRaw))
      else if (cheesyLocals throttle wheel quickTurn s d).rPowerRaw < -1 then
        ((cheesyLocals throttle wheel quickTurn s d).lPowerRaw
          + (cheesyLocals throttle wheel quickTurn s d).overPower
            * (-1 - (cheesyLocals throttle wheel quickTurn s d).rPowerRaw), -1)
      else
        ((cheesyLocals throttle wheel quickTurn s d).lPowerRaw,
          (cheesyLocals throttle wheel quickTurn s d).rPowerRaw) :=
  rfl

/-- `SetLinearPower` leaves the statics of `CheesyDrive` alone. -/
theorem SetLinearPower_statics (left right : ℚ) (d : Drive) :
    (SetLinearPower left right d).fpga = d.fpga ∧
    (SetLinearPower left right d).prevGyro = d.prevGyro := by
  rw [SetLinearPower_eq, SetPower_eq]
  exact ⟨rfl, rfl⟩

/-- The statics after `CheesyDrive` hold the sample taken in the call. -/
theorem CheesyDrive_statics (throttle wheel : ℚ) (quickTurn : Bool) (s : Samples) (d : Drive) :
    (CheesyDrive throttle wheel quickTurn s d).fpga = some s.curfpga ∧
    (CheesyDrive throttle wheel quickTurn s d).prevGyro = some s.curGyro := by
  unfold CheesyDrive
  by_cases hz : throttle = 0 ∧ quickTurn = false
  · simp only [if_pos hz]
    rw [(SetLinearPower_statics _ _ _).1, (SetLinearPower_statics _ _ _).2,
      (SetLinearPower_statics _ _ _).1, (SetLinearPower_statics _ _ _).2]
    exact ⟨rfl, rfl⟩
  · simp only [if_neg hz]
    rw [(SetLinearPower_statics _ _ _).1, (SetLinearPower_statics _ _ _).2]
    exact ⟨rfl, rfl⟩

/-- C12. Without quick turn, `CheesyDrive` computes angular power
`|throttle| * wheel * sensitivity - headingRate * inertiaGain` with the
sensitivity of the current gear, raw left `throttle + angularPower` and raw right
`throttle - angularPower`; the over-power factor is 0, so whichever branch of
the saturation chain clamps a side leaves the opposite side at its raw value. -/
theorem C12_normal_mode_mixing (throttle wheel : ℚ) (s : Samples) (d : Drive) :
    (cheesyLocals throttle wheel false s d).overPower = 0 ∧
    (cheesyLocals throttle wheel false s d).sensitivity =
      (if d.shiftSolenoid_ = false then d.constants_.turnSensHigh
       else d.constants_.turnSensLow) ∧
    (cheesyLocals throttle wheel false s d).angularPower =
      |throttle| * wheel * (cheesyLocals throttle wheel false s d).sensitivity
        - (cheesyLocals throttle wheel false s d).wubbleu * d.constants_.inertiaGain ∧
    (cheesyLocals throttle wheel false s d).lPowerRaw =
      throttle + (cheesyLocals throttle wheel false s d).angularPower ∧
    (cheesyLocals throttle wheel false s d).rPowerRaw =
      throttle - (cheesyLocals throttle wheel false s d).angularPower ∧
    ((cheesyLocals throttle wheel false s d).lPowerRaw > 1 →
      (cheesyLocals throttle wheel false s d).lPower = 1 ∧
      (cheesyLocals throttle wheel false s d).rPower =
        (cheesyLocals throttle wheel false s d).rPowerRaw) ∧
    (¬ (cheesyLocals throttle wheel false s d).lPowerRaw > 1 →
      (cheesyLocals throttle wheel false s d).rPowerRaw > 1 →
      (cheesyLocals throttle wheel false s d).lPower =
        (cheesyLocals throttle wheel false s d).lPowerRaw ∧
      (cheesyLocals throttle wheel false s d).rPower = 1) ∧
    (¬ (cheesyLocals throttle wheel false s d).lPowerRaw > 1 →
      ¬ (cheesyLocals throttle wheel false s d).rPowerRaw > 1 →
      (cheesyLocals throttle wheel false s d).lPowerRaw < -1 →
      (cheesyLocals throttle wheel false s d).lPower = -1 ∧
      (cheesyLocals throttle wheel false s d).rPower =
        (cheesyLocals throttle wheel false s d).rPowerRaw) ∧
    (¬ (cheesyLocals throttle wheel false s d).lPowerRaw > 1 →
      ¬ (cheesyLocals throttle wheel false s d).rPowerRaw > 1 →
      ¬ (cheesyLocals throttle wheel false s d).lPowerRaw < -1 →
      (cheesyLocals throttle wheel false s d).rPowerRaw < -1 →
      (cheesyLocals throttle wheel false s d).lPower =
        (cheesyLocals throttle wheel false s d).lPowerRaw ∧
      (cheesyLocals throttle wheel false s d).rPower = -1) := by
  have hop : (cheesyLocals throttle wheel false s d).overPower = 0 := by simp [cheesyLocals]
  have hsat := cheesyLocals_saturation throttle wheel false s d
  rw [hop] at hsat
  simp only [zero_mul, sub_zero, add_zero] at hsat
  refine ⟨hop, ?_, by simp [cheesyLocals], rfl, rfl, ?_, ?_, ?_, ?_⟩
  · cases hg : d.shiftSolenoid_ <;> simp [cheesyLocals, hg]
  · intro h1
    rw [if_pos h1] at hsat
    exact ⟨(Prod.mk.inj hsat).1, (Prod.mk.inj hsat).2⟩
  · intro h1 h2
    rw [if_neg h1, if_pos h2] at hsat
    exact ⟨(Prod.mk.inj hsat).1, (Prod.mk.inj hsat).2⟩
  · intro h1 h2 h3
    rw [if_neg h1, if_neg h2, if_pos h3] at hsat
    exact ⟨(Prod.mk.inj hsat).1, (Prod.mk.inj hsat).2⟩
  · intro h1 h2 h3 h4
    rw [if_neg h1, if_neg h2, if_neg h3, if_pos h4] at hsat
    exact ⟨(Prod.mk.inj hsat).1, (Prod.mk.inj hsat).2⟩

/-- C12, at a concrete input: throttle 1 and wheel 1 in low gear with the
heading steady.  The raw powers are (2, 0); the left side is clamped to 1 and the
right side stays at its raw value 0. -/
theorem C12_normal_mode_mixing_witness :
    (cheesyLocals 1 1 false steadyReads (sampleDrive true)).lPowerRaw > 1 ∧
    (cheesyLocals 1 1 false steadyReads (sampleDrive true)).rPowerRaw = 0 ∧
    (cheesyLocals 1 1 false steadyReads (sampleDrive true)).lPower = 1 ∧
    (cheesyLocals 1 1 false steadyReads (sampleDrive true)).rPower =
      (cheesyLocals 1 1 false steadyReads (sampleDrive true)).rPowerRaw :=
  ⟨by norm_num [cheesyLocals, steadyReads, sampleDrive],
    by norm_num [cheesyLocals, steadyReads, sampleDrive],
    ((C12_normal_mode_mixing 1 1 steadyReads (sampleDrive true)).2.2.2.2.2.1
      (by norm_num [cheesyLocals, steadyReads, sampleDrive])).1,
    ((C12_normal_mode_mixing 1 1 steadyReads (sampleDrive true)).2.2.2.2.2.1
      (by norm_num [cheesyLocals, steadyReads, sampleDrive])).2⟩

/-- C13. The gear setter and the mixing agree: with the shift solenoid reading
back the value `SetHighGear` wrote, a `CheesyDrive` without quick turn uses
`turnSensHigh` after `SetHighGear(true)` and `turnSensLow` after
`SetHighGear(false)`, as the sensitivity and in the angular power. -/
theorem C13_gear_selects_sensitivity (throttle wheel : ℚ) (s : Samples) (d : Drive) :
    (SetHighGear true d).shiftSolenoid_ = false ∧
    (SetHighGear false d).shiftSolenoid_ = true ∧
    (cheesyLocals throttle wheel false s (SetHighGear true d)).sensitivity =
      d.constants_.turnSensHigh ∧
    (cheesyLocals throttle wheel false s (SetHighGear false d)).sensitivity =
      d.constants_.turnSensLow ∧
    (cheesyLocals throttle wheel false s (SetHighGear true d)).angularPower =
      |throttle| * wheel * d.constants_.turnSensHigh
        - (cheesyLocals throttle wheel false s d).wubbleu * d.constants_.inertiaGain ∧
    (cheesyLocals throttle wheel false s (SetHighGear false d)).angularPower =
      |throttle| * wheel * d.constants_.turnSensLow
        - (cheesyLocals throttle wheel false s d).wubbleu * d.constants_.inertiaGain := by
  refine ⟨rfl, rfl, ?_, ?_, ?_, ?_⟩ <;> simp [cheesyLocals, SetHighGear]

/-- C14. For a throttle in [-1, 1] the raw powers `throttle + angularPower` and
`throttle - angularPower` are never both above 1 and never both below -1,
whatever the wheel, the mode, the gear, the constants and the heading rate. -/
theorem C14_same_direction_exclusive (throttle wheel : ℚ) (quickTurn : Bool)
    (s : Samples) (d : Drive) (hlo : -1 ≤ throttle) (hhi : throttle ≤ 1) :
    ¬ ((cheesyLocals throttle wheel quickTurn s d).lPowerRaw > 1 ∧
        (cheesyLocals throttle wheel quickTurn s d).rPowerRaw > 1) ∧
    ¬ ((cheesyLocals throttle wheel quickTurn s d).lPowerRaw < -1 ∧
        (cheesyLocals throttle wheel quickTurn s d).rPowerRaw < -1) := by
  obtain ⟨hl, hr⟩ := cheesyLocals_raw throttle wheel quickTurn s d
  rw [hl, hr]
  constructor
  · rintro ⟨h1, h2⟩; linarith
  · rintro ⟨h1, h2⟩; linarith

/-- C14, at a concrete input: throttle 0.9 and wheel 0.9 in quick turn, where
the left raw power 1.8 is above 1 and the right raw power 0 is not. -/
theorem C14_same_direction_exclusive_witness :
    (-1 : ℚ) ≤ 9 / 10 ∧ (9 / 10 : ℚ) ≤ 1 ∧
    (cheesyLocals (9 / 10) (9 / 10) true sampleReads (sampleDrive true)).lPowerRaw > 1 ∧
    ¬ ((cheesyLocals (9 / 10) (9 / 10) true sampleReads (sampleDrive true)).lPowerRaw > 1 ∧
        (cheesyLocals (9 / 10) (9 / 10) true sampleReads (sampleDrive true)).rPowerRaw > 1) ∧
    ¬ ((cheesyLocals (9 / 10) (9 / 10) true sampleReads (sampleDrive true)).lPowerRaw < -1 ∧
        (cheesyLocals (9 / 10) (9 / 10) true sampleReads (sampleDrive true)).rPowerRaw < -1) :=
  ⟨by norm_num, by norm_num, by norm_num [cheesyLocals],
    C14_same_direction_exclusive (9 / 10) (9 / 10) true sampleReads (sampleDrive true)
      (by norm_num) (by norm_num)⟩

/-- C15. On every `CheesyDrive` call, in both modes, the heading rate is
`(currentHeading - previousHeading) / (currentTime - previousTime)` against the
previous sample held in the statics (on the first call, the sample their
initialisers take), and after the call the statics hold the heading and time
sampled in that call, so that the next call measures against them.  In quick
turn the rate is computed all the same, though it does not enter the angular
power. -/
theorem C15_heading_rate_and_statics (throttle wheel : ℚ) (quickTurn : Bool)
    (s : Samples) (d : Drive) :
    (cheesyLocals throttle wheel quickTurn s d).wubbleu =
      (s.curGyro - d.prevGyro.getD s.gyroInit) / (s.curfpga - d.fpga.getD s.fpgaInit) ∧
    (∀ t0 g0 : ℚ, d.fpga = some t0 → d.prevGyro = some g0 →
      (cheesyLocals throttle wheel quickTurn s d).wubbleu =
        (s.curGyro - g0) / (s.curfpga - t0)) ∧
    (CheesyDrive throttle wheel quickTurn s d).fpga = some s.curfpga ∧
    (CheesyDrive throttle wheel quickTurn s d).prevGyro = some s.curGyro ∧
    (∀ (throttle2 wheel2 : ℚ) (quickTurn2 : Bool) (s2 : Samples),
      (cheesyLocals throttle2 wheel2 quickTurn2 s2
          (CheesyDrive throttle wheel quickTurn s d)).wubbleu =
        (s2.curGyro - s.curGyro) / (s2.curfpga - s.curfpga)) := by
  obtain ⟨hf, hg⟩ := CheesyDrive_statics throttle wheel quickTurn s d
  refine ⟨rfl, ?_, hf, hg, ?_⟩
  · intro t0 g0 h1 h2
    show (s.curGyro - d.prevGyro.getD s.gyroInit) / (s.curfpga - d.fpga.getD s.fpgaInit) = _
    rw [h1, h2]
    rfl
  · intro throttle2 wheel2 quickTurn2 s2
    show (s2.curGyro - (CheesyDrive throttle wheel quickTurn s d).prevGyro.getD s2.gyroInit) /
      (s2.curfpga - (CheesyDrive throttle wheel quickTurn s d).fpga.getD s2.fpgaInit) = _
    rw [hf, hg]
    rfl

/-- C15, at a concrete input: statics holding the sample (time 0, heading 0),
current sample (time 1, heading 1), in quick turn and not. -/
theorem C15_heading_rate_and_statics_witness :
    (sampleDrive true).fpga = some 0 ∧ (sampleDrive true).prevGyro = some 0 ∧
    (cheesyLocals (9 / 10) (9 / 10) true sampleReads (sampleDrive true)).wubbleu =
      (sampleReads.curGyro - 0) / (sampleReads.curfpga - 0) ∧
    (cheesyLocals (9 / 10) (9 / 10) false sampleReads (sampleDrive true)).wubbleu =
      (sampleReads.curGyro - 0) / (sampleReads.curfpga - 0) :=
  ⟨rfl, rfl,
    (C15_heading_rate_and_statics (9 / 10) (9 / 10) true sampleReads (sampleDrive true)).2.1
      0 0 rfl rfl,
    (C15_heading_rate_and_statics (9 / 10) (9 / 10) false sampleReads (sampleDrive true)).2.1
      0 0 rfl rfl⟩

/-- C16. `SetPower` drives the two motors of each side with opposite signs of
the same magnitude: motor A of the left side gets `L` and motor B gets `-L`,
motor A of the right side gets `-R` and motor B gets `R`, where `L` and `R` are
the clamped powers, or 0 with the brake engaged; each pair sums to 0. -/
theorem C16_SetPower_signs (d : Drive) (left right : ℚ) :
    (SetPower left right d).leftDriveMotorA_ =
      (if GetBrakeOn d = true then 0 else clampUnit left) ∧
    (SetPower left right d).leftDriveMotorB_ =
      -(if GetBrakeOn d = true then 0 else clampUnit left) ∧
    (SetPower left right d).rightDriveMotorA_ =
      -(if GetBrakeOn d = true then 0 else clampUnit right) ∧
    (SetPower left right d).rightDriveMotorB_ =
      (if GetBrakeOn d = true then 0 else clampUnit right) ∧
    (SetPower left right d).leftDriveMotorA_ + (SetPower left right d).leftDriveMotorB_ = 0 ∧
    (SetPower left right d).rightDriveMotorA_ + (SetPower left right d).rightDriveMotorB_ = 0 ∧
    written d (SetPower left right d) =
      [(Motor.leftDriveMotorA, if GetBrakeOn d = true then 0 else clampUnit left),
       (Motor.leftDriveMotorB, -(if GetBrakeOn d = true then 0 else clampUnit left)),
       (Motor.rightDriveMotorA, -(if GetBrakeOn d = true then 0 else clampUnit right)),
       (Motor.rightDriveMotorB, if GetBrakeOn d = true then 0 else clampUnit right)] := by
  refine ⟨?_, ?_, ?_, ?_, ?_, ?_, written_of_append ?_⟩ <;>
    rw [SetPower_eq] <;> simp [PwmLimit_eq_clampUnit]

/-- C17. In quick turn, for throttle and wheel in [-1, 1], at most one of the
four saturation conditions on the raw powers `throttle + wheel` and
`throttle - wheel` holds, and the powers handed to `SetLinearPower` after the
saturation chain both lie in [-1, 1]. -/
theorem C17_quickTurn_stays_in_range (throttle wheel : ℚ) (s : Samples) (d : Drive)
    (ht1 : -1 ≤ throttle) (ht2 : throttle ≤ 1) (hw1 : -1 ≤ wheel) (hw2 : wheel ≤ 1) :
    (cheesyLocals throttle wheel true s d).lPowerRaw = throttle + wheel ∧
    (cheesyLocals throttle wheel true s d).rPowerRaw = throttle - wheel ∧
    ¬ (throttle + wheel > 1 ∧ throttle - wheel > 1) ∧
    ¬ (throttle + wheel > 1 ∧ throttle + wheel < -1) ∧
    ¬ (throttle + wheel > 1 ∧ throttle - wheel < -1) ∧
    ¬ (throttle - wheel > 1 ∧ throttle + wheel < -1) ∧
    ¬ (throttle - wheel > 1 ∧ throttle - wheel < -1) ∧
    ¬ (throttle + wheel < -1 ∧ throttle - wheel < -1) ∧
    CheesyDrive throttle wheel true s d =
      SetLinearPower (cheesyLocals throttle wheel true s d).lPower
        (cheesyLocals throttle wheel true s d).rPower (storeSample s d) ∧
    -1 ≤ (cheesyLocals throttle wheel true s d).lPower ∧
    (cheesyLocals throttle wheel true s d).lPower ≤ 1 ∧
    -1 ≤ (cheesyLocals throttle wheel true s d).rPower ∧
    (cheesyLocals throttle wheel true s d).rPower ≤ 1 := by
  have hl : (cheesyLocals throttle wheel true s d).lPowerRaw = throttle + wheel := by
    simp [cheesyLocals]
  have hr : (cheesyLocals throttle wheel true s d).rPowerRaw = throttle - wheel := by
    simp [cheesyLocals]
  have hop : (cheesyLocals throttle wheel true s d).overPower = 1 := by simp [cheesyLocals]
  have hsat := cheesyLocals_saturation throttle wheel true s d
  rw [hl, hr, hop] at hsat
  have hbounds : -1 ≤ (cheesyLocals throttle wheel true s d).lPower ∧
      (cheesyLocals throttle wheel true s d).lPower ≤ 1 ∧
      -1 ≤ (cheesyLocals throttle wheel true s d).rPower ∧
      (cheesyLocals throttle wheel true s d).rPower ≤ 1 := by
    split_ifs at hsat with h1 h2 h3 h4 <;>
      obtain ⟨e1, e2⟩ := Prod.mk.inj hsat <;>
      rw [e1, e2] <;>
      refine ⟨?_, ?_, ?_, ?_⟩ <;> linarith
  refine ⟨hl, hr, ?_, ?_, ?_, ?_, ?_, ?_, by simp [CheesyDrive], hbounds⟩ <;>
    rintro ⟨h1, h2⟩ <;> linarith

/-- C17, at the input of C5: throttle 0.9 and wheel 0.9 hand on (1, -0.8). -/
theorem C17_quickTurn_stays_in_range_witness :
    ((-1 : ℚ) ≤ 9 / 10 ∧ (9 / 10 : ℚ) ≤ 1) ∧
    -1 ≤ (cheesyLocals (9 / 10) (9 / 10) true sampleReads (sampleDrive true)).lPower ∧
    (cheesyLocals (9 / 10) (9 / 10) true sampleReads (sampleDrive true)).lPower ≤ 1 ∧
    -1 ≤ (cheesyLocals (9 / 10) (9 / 10) true sampleReads (sampleDrive true)).rPower ∧
    (cheesyLocals (9 / 10) (9 / 10) true sampleReads (sampleDrive true)).rPower ≤ 1 :=
  ⟨⟨by norm_num, by norm_num⟩,
    (C17_quickTurn_stays_in_range (9 / 10) (9 / 10) sampleReads (sampleDrive true)
      (by norm_num) (by norm_num) (by norm_num) (by norm_num)).2.2.2.2.2.2.2.2.2⟩

/-- C18. The intermediate clamp of `SetLinearPower` is redundant:
`SetLinearPower(left, right)` leaves the drive, its four motor outputs and the
log of motor writes exactly as `SetPower(Linearize(left), Linearize(right))`
does, for every brake state and all coefficients, because `SetPower` clamps
again and clamping to [-1, 1] is idempotent. -/
theorem C18_inline_clamp_redundant (d : Drive) (left right : ℚ) :
    SetLinearPower left right d =
      SetPower (Linearize d.constants_ left) (Linearize d.constants_ right) d ∧
    written d (SetLinearPower left right d) =
      written d (SetPower (Linearize d.constants_ left) (Linearize d.constants_ right) d) ∧
    PwmLimit (clampUnit (Linearize d.constants_ left)) =
      PwmLimit (Linearize d.constants_ left) := by
  have hidem : ∀ x : ℚ, PwmLimit (clampUnit x) = PwmLimit x := by
    intro x
    rw [PwmLimit_eq_clampUnit, PwmLimit_eq_clampUnit, clampUnit_idem]
  have heq : SetLinearPower left right d =
      SetPower (Linearize d.constants_ left) (Linearize d.constants_ right) d := by
    rw [SetLinearPower_eq, SetPower_eq, SetPower_eq, hidem, hidem]
  exact ⟨heq, by rw [heq], hidem _⟩

end Drive
